import Mathlib

/-!
# strands.c: trigram statistics and arrow decisions

A shallow embedding of `src/strands.c` (the corpus decoder, the trigram table,
the line scanner and the arrow decision of `draw`) and theorems about it.

Conventions of the embedding.

* A `gunichar` is a `Nat`; `(gunichar)-1` and `(gunichar)-2` are the 32-bit
  values `0xFFFFFFFF` and `0xFFFFFFFE`.
* A byte source (`GInputStream`) is the list of bytes still to be read; a read
  at the end of the list is the read that returns 0. Read errors are not
  modelled.
* A `size_t` counter is a `Nat`: every increment of a table value consumes an
  input character, so the counters stay far below `2^64`.
* The GLib character tables (`g_unichar_isalpha`, `g_unichar_toupper`) are not
  part of the repository; they are the two fields of `Unichar`, a parameter of
  every function that calls them.
* A `double` is a `Dbl`: an exact rational, an infinity, or NaN. Rounding is
  not modelled; division by zero and the NaN comparisons are.
-/

namespace Strands

/-! ## GLib character classification (parameter) -/

/-- The two GLib Unicode table functions the program calls. -/
structure Unichar where
  /-- The function `g_unichar_isalpha`. -/
  g_unichar_isalpha : Nat → Bool
  /-- The function `g_unichar_toupper`. -/
  g_unichar_toupper : Nat → Nat

/-- The GLib tables restricted to ASCII: on code points below 128 these are the
values of `g_unichar_isalpha` and `g_unichar_toupper`; every other code point
is treated as a non-letter. Used to evaluate the program on ASCII inputs. -/
def ascii : Unichar where
  g_unichar_isalpha c := (65 ≤ c && c ≤ 90) || (97 ≤ c && c ≤ 122)
  g_unichar_toupper c := if 97 ≤ c ∧ c ≤ 122 then c - 32 else c

/-! ## GLib UTF-8 decoding and encoding -/

/-- The value `(gunichar)-2`: a partial sequence. -/
def PARTIAL_SEQUENCE : Nat := 0xFFFFFFFE

/-- The value `(gunichar)-1`: a malformed sequence. -/
def MALFORMED_SEQUENCE : Nat := 0xFFFFFFFF

/-- The byte `p[i]` of a buffer. -/
def byteAt (p : List Nat) (i : Nat) : Nat := p.getD i 0

/-- The continuation loop of `g_utf8_get_char_extended`:
`for (i = 1; i < len; ++i)`, reading `p[i]` and accumulating into `wc`. A byte
that is no continuation byte returns at once (`Except.error` carries the value
returned): "malformed" for a non-zero byte, "partial" for a NUL byte. `n` is
the number of iterations left. -/
def continuation (p : List Nat) : Nat → Nat → Nat → Except Nat Nat
  | 0, _, wc => .ok wc
  | n + 1, i, wc =>
    let ch := byteAt p i
    if ch &&& 0xc0 ≠ 0x80 then
      (if ch ≠ 0 then .error MALFORMED_SEQUENCE else .error PARTIAL_SEQUENCE)
    else
      continuation p n (i + 1) ((wc <<< 6) ||| (ch &&& 0x3f))

/-- GLib `g_utf8_get_char_extended (p, max_len)`. -/
def g_utf8_get_char_extended (p : List Nat) (max_len : Int) : Nat :=
  let wc := byteAt p 0
  if wc < 0x80 then wc
  else if wc < 0xc0 then MALFORMED_SEQUENCE
  else if 0xfe ≤ wc then MALFORMED_SEQUENCE
  else
    let len : Nat :=
      if wc < 0xe0 then 2 else if wc < 0xf0 then 3 else if wc < 0xf8 then 4
      else if wc < 0xfc then 5 else 6
    let wc0 : Nat :=
      if wc < 0xe0 then wc &&& 0x1f else if wc < 0xf0 then wc &&& 0x0f
      else if wc < 0xf8 then wc &&& 0x07 else if wc < 0xfc then wc &&& 0x03
      else wc &&& 0x01
    let min_code : Nat :=
      if wc < 0xe0 then 1 <<< 7 else if wc < 0xf0 then 1 <<< 11
      else if wc < 0xf8 then 1 <<< 16 else if wc < 0xfc then 1 <<< 21
      else 1 <<< 26
    if 0 ≤ max_len ∧ (len : Int) > max_len then
      if (List.range' 1 (max_len.toNat - 1)).any (fun i => byteAt p i &&& 0xc0 != 0x80)
      then MALFORMED_SEQUENCE else PARTIAL_SEQUENCE
    else
      match continuation p (len - 1) 1 wc0 with
      | .error r => r
      | .ok r => if r < min_code then MALFORMED_SEQUENCE else r

/-- GLib `UNICODE_VALID`. -/
def UNICODE_VALID (c : Nat) : Bool := c < 0x110000 && (c &&& 0xFFFFF800) != 0xD800

/-- GLib `g_utf8_get_char_validated (p, max_len)`: `(gunichar)-2` when
`max_len` is zero, when the bytes are a partial sequence, or when the decoded
character is NUL; `(gunichar)-1` when the bytes are malformed. -/
def g_utf8_get_char_validated (p : List Nat) (max_len : Int) : Nat :=
  if max_len = 0 then PARTIAL_SEQUENCE
  else
    let result := g_utf8_get_char_extended p max_len
    if result = 0 ∧ 0 < max_len then PARTIAL_SEQUENCE
    else if result &&& 0x80000000 ≠ 0 then result
    else if ¬ UNICODE_VALID result then MALFORMED_SEQUENCE
    else result

/-- The `for (int count = 0;; ++count)` loop of `get_unichar`: `buffer` holds
the `count` bytes written so far; the next byte is stored at `buffer[count]`
and the buffer is validated with `max_len = count`. The C array has 6 slots;
the model keeps every byte written, also past index 5. -/
def get_unichar_loop (U : Unichar) : List Nat → List Nat → Nat → Nat × List Nat
  | [], _, _ => (0, [])
  | b :: stream, buffer, count =>
    let out := g_utf8_get_char_validated (buffer ++ [b]) count
    if out ≠ PARTIAL_SEQUENCE then (U.g_unichar_toupper out, stream)
    else get_unichar_loop U stream (buffer ++ [b]) (count + 1)

/-- The function `get_unichar`: the value returned and the stream left. -/
def get_unichar (U : Unichar) (stream : List Nat) : Nat × List Nat :=
  get_unichar_loop U stream [] 0

/-- The continuation bytes `outbuf[1..n]` written by the loop of
`g_unichar_to_utf8`: `outbuf[i] = (c & 0x3f) | 0x80; c >>= 6` for `i` from `n`
down to 1. -/
def utf8_tail : Nat → Nat → List Nat
  | 0, _ => []
  | n + 1, c => utf8_tail n (c >>> 6) ++ [(c &&& 0x3f) ||| 0x80]

/-- GLib `g_unichar_to_utf8 (c, outbuf)`: the bytes written to `outbuf`; the
value returned is their number. The first byte is `c | first` after the
shifts, stored in a `char`. -/
def g_unichar_to_utf8 (c : Nat) : List Nat :=
  let len : Nat :=
    if c < 0x80 then 1 else if c < 0x800 then 2 else if c < 0x10000 then 3
    else if c < 0x200000 then 4 else if c < 0x4000000 then 5 else 6
  let first : Nat :=
    if c < 0x80 then 0 else if c < 0x800 then 0xc0 else if c < 0x10000 then 0xe0
    else if c < 0x200000 then 0xf0 else if c < 0x4000000 then 0xf8 else 0xfc
  (((c >>> (6 * (len - 1))) ||| first) % 256) :: utf8_tail (len - 1) c

/-- The function `contract_utf8 (dst, src, count)` with `count` the length of
`src`: the bytes written to `dst`, the terminating 0 included. -/
def contract_utf8 : List Nat → List Nat
  | [] => [0]
  | c :: src => g_unichar_to_utf8 c ++ contract_utf8 src

/-- The C string a `char *` points to: the bytes before the first 0. -/
def c_string (buf : List Nat) : List Nat := buf.takeWhile (fun b => b != 0)

/-! ## The hash table and the model -/

/-- A `GHashTable` with `g_str_hash`/`g_str_equal`: entries keyed by C strings,
the values being the counts stored as pointers. -/
abbrev Table := List (List Nat × Nat)

/-- GLib `g_hash_table_lookup`, cast to `size_t`: the value stored under the
key, `NULL` (0) when the key is absent. -/
def g_hash_table_lookup : Table → List Nat → Nat
  | [], _ => 0
  | (k, v) :: t, key => if k = key then v else g_hash_table_lookup t key

/-- GLib `g_hash_table_insert`: replaces the value of a key that is present,
adds the entry otherwise. -/
def g_hash_table_insert : Table → List Nat → Nat → Table
  | [], key, value => [(key, value)]
  | (k, v) :: t, key, value =>
    if k = key then (k, value) :: t else (k, v) :: g_hash_table_insert t key value

/-- The struct `CharCounts`. -/
structure CharCounts where
  /-- The field `table`. -/
  table : Table
  /-- The field `max`. -/
  max : Nat
  /-- The field `total`. -/
  total : Nat
deriving DecidableEq, Repr

/-- The model `main` builds: `{{g_hash_table_new(...)}}`, a new table, the
other members zero. -/
def initial_counts : CharCounts := { table := [], max := 0, total := 0 }

/-- The function `shift (array_len, array, next)`. -/
def shift (array_len : Nat) (array : List Nat) (next : Nat) : List Nat :=
  ((List.range' 1 (array_len - 1)).foldl
    (fun a i => a.set (i - 1) (a.getD i 0)) array).set (array_len - 1) next

/-- The function `counts_add_callback`. -/
def counts_add_callback (counts : CharCounts) (entry : List Nat × Nat) : CharCounts :=
  { counts with max := Nat.max counts.max entry.2, total := counts.total + entry.2 }

/-- The body of the `while (0 != (c = get_unichar(input)))` loop of
`counts_add`, run until `get_unichar` returns 0; the first argument bounds the
number of iterations. -/
def counts_add_loop (U : Unichar) : Nat → List Nat → List Nat → Table → Table
  | 0, _, _, table => table
  | fuel + 1, input, read_long, table =>
    let r := get_unichar U input
    if r.1 = 0 then table
    else
      let read_long := shift 3 read_long (U.g_unichar_toupper r.1)
      if read_long.all U.g_unichar_isalpha then
        let read_ptr := c_string (contract_utf8 read_long)
        counts_add_loop U fuel r.2 read_long
          (g_hash_table_insert table read_ptr (g_hash_table_lookup table read_ptr + 1))
      else
        counts_add_loop U fuel r.2 read_long table

/-- The function `counts_add`. The file is `none` when `g_file_read` fails and
`some bytes` otherwise. Every iteration of the loop reads at least one byte, so
`input.length` iterations exhaust the input. -/
def counts_add (U : Unichar) (counts : CharCounts) (file : Option (List Nat)) : CharCounts :=
  match file with
  | none => counts
  | some input =>
    let r1 := get_unichar U input
    if r1.1 = 0 then counts
    else
      let r2 := get_unichar U r1.2
      if r2.1 = 0 then counts
      else
        let table := counts_add_loop U r2.2.length r2.2 [0, r1.1, r2.1] counts.table
        table.foldl counts_add_callback { table := table, max := 0, total := 0 }

/-- The function `counts_clear_callback`: every entry is to be removed. -/
def counts_clear_callback (_entry : List Nat × Nat) : Bool := true

/-- The function `counts_clear`: `g_hash_table_foreach_remove` keeps the
entries for which the callback returns false. -/
def counts_clear (counts : CharCounts) : CharCounts :=
  { total := 0, max := 0,
    table := counts.table.filter (fun e => !counts_clear_callback e) }

/-! ## Doubles -/

/-- A C `double`: a finite value (an exact rational), an infinity or NaN. -/
inductive Dbl where
  | fin (q : ℚ)
  | pinf
  | ninf
  | nan
deriving DecidableEq

namespace Dbl

/-- The conversion `(double) n` of a `size_t`. -/
def ofNat (n : Nat) : Dbl := fin n

/-- IEEE division `a / b`; a zero divisor is `+0`. -/
def div : Dbl → Dbl → Dbl
  | fin a, fin b =>
    if b = 0 then (if a = 0 then nan else if 0 < a then pinf else ninf) else fin (a / b)
  | fin _, pinf => fin 0
  | fin _, ninf => fin 0
  | pinf, fin b => if 0 ≤ b then pinf else ninf
  | ninf, fin b => if 0 ≤ b then ninf else pinf
  | _, _ => nan

/-- IEEE multiplication `a * b`. -/
def mul : Dbl → Dbl → Dbl
  | fin a, fin b => fin (a * b)
  | fin a, pinf => if a = 0 then nan else if 0 < a then pinf else ninf
  | fin a, ninf => if a = 0 then nan else if 0 < a then ninf else pinf
  | pinf, fin b => if b = 0 then nan else if 0 < b then pinf else ninf
  | ninf, fin b => if b = 0 then nan else if 0 < b then ninf else pinf
  | pinf, pinf => pinf
  | ninf, ninf => pinf
  | pinf, ninf => ninf
  | ninf, pinf => ninf
  | _, _ => nan

/-- IEEE subtraction `a - b`. -/
def sub : Dbl → Dbl → Dbl
  | fin a, fin b => fin (a - b)
  | fin _, pinf => ninf
  | fin _, ninf => pinf
  | pinf, fin _ => pinf
  | ninf, fin _ => ninf
  | pinf, ninf => pinf
  | ninf, pinf => ninf
  | _, _ => nan

/-- The comparison `a > b`: false when either side is NaN. -/
def gt : Dbl → Dbl → Bool
  | fin a, fin b => decide (b < a)
  | fin _, ninf => true
  | pinf, fin _ => true
  | pinf, ninf => true
  | _, _ => false

/-- The comparison `a <= b`: false when either side is NaN. -/
def le : Dbl → Dbl → Bool
  | fin a, fin b => decide (a ≤ b)
  | fin _, pinf => true
  | ninf, fin _ => true
  | ninf, ninf => true
  | ninf, pinf => true
  | pinf, pinf => true
  | _, _ => false

/-- GLib `MAX (a, b)`: `((a) > (b)) ? (a) : (b)`. -/
def MAX (a b : Dbl) : Dbl := if gt a b then a else b

end Dbl

/-! ## The arrow decision of `draw` -/

/-- The cell `surrounding[y + 1][x + 1]` for offsets `y`, `x` in -1..1. -/
def cell (surrounding : List (List Nat)) (y x : Int) : Nat :=
  (surrounding.getD (y + 1).toNat []).getD (x + 1).toNat 0

/-- The values `-1, 0, 1` of the loops `for (int y = -1; y <= 1; ++y)`. -/
def offsets : List Int := [-1, 0, 1]

/-- The quotient `(size_t)g_hash_table_lookup(table, buf) / (double)total` for
the key `chars = {cell at (y0, x0), center, cell at (y1, x1)}`. -/
def trigram_frequency (counts : CharCounts) (surrounding : List (List Nat))
    (y0 x0 y1 x1 : Int) : Dbl :=
  let chars := [cell surrounding y0 x0, cell surrounding 0 0, cell surrounding y1 x1]
  let buf := contract_utf8 chars
  Dbl.div (Dbl.ofNat (g_hash_table_lookup counts.table (c_string buf))) (Dbl.ofNat counts.total)

/-- The two inner loops of `draw` over `y0`, `x0`: the value of `frequency`
when they end, for the direction `(y1, x1)`. -/
def frequency (counts : CharCounts) (surrounding : List (List Nat)) (y1 x1 : Int) : Dbl :=
  offsets.foldl (fun f y0 =>
    offsets.foldl (fun f x0 =>
      if (x0 ≠ 0 ∨ y0 ≠ 0) ∧ (x0 ≠ x1 ∨ y0 ≠ y1) ∧ 0 ≠ cell surrounding y0 x0 then
        Dbl.MAX f (trigram_frequency counts surrounding y0 x0 y1 x1)
      else f) f) (Dbl.fin 0)

/-- Whether `draw` strokes the arrow toward `(y1, x1)`: the guard of the outer
loops and the test `frequency > frequency_threshold`. -/
def arrow (counts : CharCounts) (surrounding : List (List Nat))
    (frequency_threshold : Dbl) (y1 x1 : Int) : Bool :=
  decide ((x1 ≠ 0 ∨ y1 ≠ 0) ∧ 0 ≠ cell surrounding y1 x1) &&
    Dbl.gt (frequency counts surrounding y1 x1) frequency_threshold

/-- The directions `draw` strokes an arrow toward, in the order of the loops
over `y1` and `x1`. -/
def arrows (counts : CharCounts) (surrounding : List (List Nat))
    (frequency_threshold : Dbl) : List (Int × Int) :=
  (offsets.flatMap (fun y1 => offsets.map (fun x1 => (y1, x1)))).filter
    (fun d => arrow counts surrounding frequency_threshold d.1 d.2)

/-- The value `frequency_max` of `draw`: `(double)max / total`. -/
def frequency_max (counts : CharCounts) : Dbl :=
  Dbl.div (Dbl.ofNat counts.max) (Dbl.ofNat counts.total)

/-- The value `frequency_threshold` of `draw` for the slider value `value`:
`frequency_max * (1 - value)`. -/
def frequency_threshold (counts : CharCounts) (value : ℚ) : Dbl :=
  Dbl.mul (frequency_max counts) (Dbl.sub (Dbl.fin 1) (Dbl.fin value))

/-! ## The text buffer and the scan of `draw` -/

/-- The function `next_in_line`. The iterator is the text from the cursor to
the end of the buffer; the result is the value returned and the iterator
left. -/
def next_in_line (U : Unichar) : List Nat → Nat × List Nat
  | [] => (0, [])
  | c :: rest =>
    if c = 13 ∨ c = 10 then (0, c :: rest)
    else if U.g_unichar_isalpha c then (U.g_unichar_toupper c, rest)
    else next_in_line U rest

/-- GTK: the text after the first line of a buffer. A line ends after its
paragraph delimiter: a line feed, a carriage return, a carriage return
followed by a line feed, or the paragraph separator U+2029. -/
def gtk_after_line : List Nat → List Nat
  | [] => []
  | [_] => []
  | c :: d :: rest =>
    if c = 13 ∧ d = 10 then rest
    else if c = 10 ∨ c = 13 ∨ c = 0x2029 then d :: rest
    else gtk_after_line (d :: rest)

/-- GTK `gtk_text_buffer_get_line_count`: one more than the number of
paragraph delimiters in the buffer. -/
def gtk_text_buffer_get_line_count : List Nat → Nat
  | [] => 1
  | [c] => if c = 10 ∨ c = 13 ∨ c = 0x2029 then 2 else 1
  | c :: d :: rest =>
    if c = 13 ∧ d = 10 then gtk_text_buffer_get_line_count rest + 1
    else if c = 10 ∨ c = 13 ∨ c = 0x2029 then gtk_text_buffer_get_line_count (d :: rest) + 1
    else gtk_text_buffer_get_line_count (d :: rest)

/-- GTK `gtk_text_buffer_get_iter_at_line`: the iterator at the start of the
line `line_number`. -/
def gtk_text_buffer_get_iter_at_line (buffer : List Nat) : Nat → List Nat
  | 0 => buffer
  | line_number + 1 => gtk_text_buffer_get_iter_at_line (gtk_after_line buffer) line_number

/-- One row of the scan of `draw`: `has_line[i]`, `lines[i]` and
`surrounding[i]`. -/
structure Row where
  /-- The flag `has_line[i]`. -/
  has_line : Bool
  /-- The iterator `lines[i]`. -/
  iter : List Nat
  /-- The window `surrounding[i]`. -/
  surrounding : List Nat
deriving DecidableEq, Repr

/-- The set-up of row `i` before the column loop: `surrounding[i] = {}` and,
when the line exists, `surrounding[i][2] = next_in_line(&lines[i])` from the
start of line `line_number`. -/
def row_init (U : Unichar) (buffer : List Nat) (has_line : Bool) (line_number : Nat) : Row :=
  if has_line then
    let r := next_in_line U (gtk_text_buffer_get_iter_at_line buffer line_number)
    { has_line := true, iter := r.2, surrounding := [0, 0, 0].set 2 r.1 }
  else
    { has_line := false, iter := [], surrounding := [0, 0, 0] }

/-- The step of row `i` in a column: when the line exists,
`shift(3, surrounding[i], next_in_line(&lines[i]))`. -/
def row_shift (U : Unichar) (row : Row) : Row :=
  if row.has_line then
    let r := next_in_line U row.iter
    { has_line := true, iter := r.2, surrounding := shift 3 row.surrounding r.1 }
  else row

/-- The loop `for (int column = 0; surrounding[1][2] != 0; ++column)` of
`draw`: the value of `surrounding` in each column, after the shifts. The first
argument bounds the number of columns. -/
def draw_columns (U : Unichar) : Nat → List Row → List (List (List Nat))
  | 0, _ => []
  | fuel + 1, rows =>
    if cell (rows.map Row.surrounding) 0 1 ≠ 0 then
      let rows := rows.map (row_shift U)
      rows.map Row.surrounding :: draw_columns U fuel rows
    else []

/-- The body of the loop over `line` of `draw`: the neighborhoods of the
columns of line `line`. Every column consumes at least one character of the
center line, so `buffer.length + 1` bounds the number of columns. -/
def draw_line (U : Unichar) (buffer : List Nat) (line : Nat) : List (List (List Nat)) :=
  let line_count := gtk_text_buffer_get_line_count buffer
  let has_line := [decide (line ≠ 0), true, decide (line ≠ line_count - 1)]
  draw_columns U (buffer.length + 1)
    ((List.range 3).map (fun i => row_init U buffer (has_line.getD i false) (line + i - 1)))

/-- What `draw` paints in one column: the line, the column, the string
`current_letter` and the directions of the arrows. -/
structure Painted where
  /-- The line index. -/
  line : Nat
  /-- The column index. -/
  column : Nat
  /-- The string `current_letter`. -/
  current_letter : List Nat
  /-- The directions `(y1, x1)` of the arrows stroked. -/
  arrows : List (Int × Int)
deriving DecidableEq

/-- The function `draw`: everything painted for the model `counts`, the slider
value `value` and the text `buffer`. -/
def draw (U : Unichar) (counts : CharCounts) (value : ℚ) (buffer : List Nat) : List Painted :=
  (List.range (gtk_text_buffer_get_line_count buffer)).flatMap (fun line =>
    (draw_line U buffer line).enum.map (fun cs =>
      { line := line, column := cs.1,
        current_letter := c_string (contract_utf8 [cell cs.2 0 0]),
        arrows := arrows counts cs.2 (frequency_threshold counts value) }))

/-! ## Notions used to state the properties -/

/-- The values successive calls of `get_unichar` return, up to the first 0;
the first argument bounds the number of calls. -/
def decode_loop (U : Unichar) : Nat → List Nat → List Nat
  | 0, _ => []
  | fuel + 1, stream =>
    let r := get_unichar U stream
    if r.1 = 0 then [] else r.1 :: decode_loop U fuel r.2

/-- The decoded character sequence of a byte source: the values successive
calls of `get_unichar` return, up to the first 0. A call that returns a
character reads at least one byte, so `stream.length` calls suffice. -/
def decode (U : Unichar) (stream : List Nat) : List Nat :=
  decode_loop U stream.length stream

/-- The windows `[s[i], s[i+1], s[i+2]]` of a sequence, for every position `i`
with `i + 2` inside the sequence, in order. -/
def windows3 : List Nat → List (List Nat)
  | a :: b :: c :: s => [a, b, c] :: windows3 (b :: c :: s)
  | _ => []

/-- The key of a window: the C string `contract_utf8` writes for it. -/
def trigram_key (chars : List Nat) : List Nat := c_string (contract_utf8 chars)

/-- The rest of the line of an iterator: the characters from the cursor up to
the first carriage return or line feed, or to the end of the buffer. -/
def line_rest (iter : List Nat) : List Nat :=
  iter.takeWhile (fun c => !(c == 13 || c == 10))

/-- The iterator at the end of the line of `iter`: at the first carriage
return or line feed, or at the end of the buffer. -/
def line_end (iter : List Nat) : List Nat := iter.drop (line_rest iter).length

/-- The nine pairs `(y, x)` of offsets, in the order of the nested loops. -/
def directions : List (Int × Int) := offsets.flatMap (fun y => offsets.map (fun x => (y, x)))

/-- Whether the direction `d` is a candidate `D'` for the direction
`(y1, x1)`: not the center, not `(y1, x1)` itself, and its cell present. -/
def eligible (surrounding : List (List Nat)) (y1 x1 : Int) (d : Int × Int) : Bool :=
  decide ((d.2 ≠ 0 ∨ d.1 ≠ 0) ∧ (d.2 ≠ x1 ∨ d.1 ≠ y1) ∧ 0 ≠ cell surrounding d.1 d.2)

/-- The value `best` for the direction `(y1, x1)`: the maximum over the
candidates `D'` of `count(key [letter at D', center, letter at D]) / total`, 0
when there is no candidate. -/
def best (counts : CharCounts) (surrounding : List (List Nat)) (y1 x1 : Int) : ℚ :=
  (((directions.filter (eligible surrounding y1 x1)).map (fun d =>
    (g_hash_table_lookup counts.table
      (trigram_key [cell surrounding d.1 d.2, cell surrounding 0 0, cell surrounding y1 x1]) : ℚ)
      / (counts.total : ℚ))).foldl max 0)

/-- The model holding exactly `CAT` and `BAT`, five times each: `total = 10`,
`max = 5`. -/
def cat_model : CharCounts :=
  { table := [([67, 65, 84], 5), ([66, 65, 84], 5)], max := 5, total := 10 }

/-- The neighborhood with center `A`, west cell `C`, east cell `T` and the six
other cells absent. -/
def cat_neighborhood : List (List Nat) := [[0, 0, 0], [67, 65, 84], [0, 0, 0]]

/-- GTK: the characters of line `line_number` of a buffer, its paragraph
delimiter excluded. -/
def gtk_line (buffer : List Nat) (line_number : Nat) : List Nat :=
  (gtk_text_buffer_get_iter_at_line buffer line_number).takeWhile
    (fun c => !(c == 10 || c == 13 || c == 0x2029))

/-- The uppercased alphabetic characters of a line, in order. -/
def letters (U : Unichar) (line : List Nat) : List Nat :=
  (line.filter U.g_unichar_isalpha).map U.g_unichar_toupper

/-- The letter `c_j` of a line, counted from 1: the absent value 0 for the
index 0 and for an index past the end. -/
def letter_at (l : List Nat) (j : Nat) : Nat := if j = 0 then 0 else l.getD (j - 1) 0

/-- The window `(c_k, c_{k+1}, c_{k+2})` of a line at column `k`. -/
def window_at (l : List Nat) (k : Nat) : List Nat :=
  [letter_at l k, letter_at l (k + 1), letter_at l (k + 2)]

/-- The state of a row of the scan before the shifts of column `k`, for a
line whose letters are `l`: the window holds `c_{k-1}, c_k, c_{k+1}` and the
letters still ahead of the iterator are those after `c_{k+1}`; a row without
line has no letters. -/
def RowAt (U : Unichar) (l : List Nat) (k : Nat) (r : Row) : Prop :=
  r.surrounding = [letter_at l (k - 1), letter_at l k, letter_at l (k + 1)] ∧
  (if r.has_line = true then letters U (line_rest r.iter) = l.drop (k + 1) else l = [])

/-- The number of bytes one call of `get_unichar` reads from a source: the
bytes are stored at `buffer[0]`, `buffer[1]`, ... in the order read, so the
last one is stored at the index `bytes_read - 1`. -/
def bytes_read (U : Unichar) (stream : List Nat) : Nat :=
  stream.length - (get_unichar U stream).2.length

/-- The first `n` calls of `get_unichar` on a source: the values they return,
in order, and the source left after them. -/
def read_calls (U : Unichar) : Nat → List Nat → List Nat × List Nat
  | 0, stream => ([], stream)
  | n + 1, stream =>
    let r := get_unichar U stream
    let q := read_calls U n r.2
    (r.1 :: q.1, q.2)

/-- The model invariant: `total` is the sum of the counts in the table and
`max` is the largest count in the table, 0 when the table is empty. -/
def Consistent (counts : CharCounts) : Prop :=
  counts.total = (counts.table.map Prod.snd).sum ∧
  (∀ e ∈ counts.table, e.2 ≤ counts.max) ∧
  (counts.table = [] → counts.max = 0) ∧
  (counts.table ≠ [] → ∃ e ∈ counts.table, e.2 = counts.max)

instance (counts : CharCounts) : Decidable (Consistent counts) := by
  unfold Consistent; infer_instance

/-- The models the program can hold: the model `main` builds, and the model
`counts_add` or `counts_clear` leaves from one of them. -/
inductive Reachable (U : Unichar) : CharCounts → Prop
  | initial : Reachable U initial_counts
  | add (counts : CharCounts) (file : Option (List Nat)) :
    Reachable U counts → Reachable U (counts_add U counts file)
  | clear (counts : CharCounts) : Reachable U counts → Reachable U (counts_clear counts)

/-! ## The decoder: what a call returns and consumes -/

theorem get_unichar_loop_length (U : Unichar) (stream buffer : List Nat) (count : Nat) :
    (get_unichar_loop U stream buffer count).2.length ≤ stream.length - 1 := by
  induction stream generalizing buffer count with
  | nil => simp [get_unichar_loop]
  | cons b stream ih =>
    unfold get_unichar_loop
    simp only []
    split
    · simp
    · have := ih (buffer ++ [b]) (count + 1)
      simp only [List.length_cons, Nat.add_sub_cancel]
      omega

theorem get_unichar_loop_upper (U : Unichar) (stream buffer : List Nat) (count : Nat) :
    (get_unichar_loop U stream buffer count).1 = 0 ∨
      ∃ out, (get_unichar_loop U stream buffer count).1 = U.g_unichar_toupper out := by
  induction stream generalizing buffer count with
  | nil => simp [get_unichar_loop]
  | cons b stream ih =>
    unfold get_unichar_loop
    simp only []
    split
    · exact Or.inr ⟨_, rfl⟩
    · exact ih _ _

theorem get_unichar_nil (U : Unichar) : get_unichar U [] = (0, []) := rfl

theorem get_unichar_length (U : Unichar) (stream : List Nat)
    (h : (get_unichar U stream).1 ≠ 0) :
    (get_unichar U stream).2.length < stream.length := by
  cases stream with
  | nil => simp [get_unichar_nil] at h
  | cons b stream =>
    have := get_unichar_loop_length U (b :: stream) [] 0
    simp only [List.length_cons, Nat.add_sub_cancel] at this
    simp only [get_unichar, List.length_cons]
    omega

theorem get_unichar_upper (U : Unichar)
    (hup : ∀ c, U.g_unichar_toupper (U.g_unichar_toupper c) = U.g_unichar_toupper c)
    (stream : List Nat) (h : (get_unichar U stream).1 ≠ 0) :
    U.g_unichar_toupper (get_unichar U stream).1 = (get_unichar U stream).1 := by
  rcases get_unichar_loop_upper U stream [] 0 with h0 | ⟨out, hout⟩
  · exact absurd h0 h
  · simp only [get_unichar]; rw [hout, hup]

theorem decode_loop_fuel (U : Unichar) (f1 f2 : Nat) (stream : List Nat)
    (h1 : stream.length ≤ f1) (h2 : stream.length ≤ f2) :
    decode_loop U f1 stream = decode_loop U f2 stream := by
  induction f1 generalizing f2 stream with
  | zero =>
    have : stream = [] := List.length_eq_zero.mp (by omega)
    subst this
    cases f2 <;> simp [decode_loop, get_unichar_nil]
  | succ f1 ih =>
    cases f2 with
    | zero =>
      have : stream = [] := List.length_eq_zero.mp (by omega)
      subst this
      simp [decode_loop, get_unichar_nil]
    | succ f2 =>
      simp only [decode_loop]
      split
      · rfl
      · rename_i hne
        have := get_unichar_length U stream hne
        rw [ih f2 _ (by omega) (by omega)]

theorem decode_unfold (U : Unichar) (stream : List Nat) :
    decode U stream =
      if (get_unichar U stream).1 = 0 then []
      else (get_unichar U stream).1 :: decode U (get_unichar U stream).2 := by
  unfold decode
  cases stream with
  | nil => simp [decode_loop, get_unichar_nil]
  | cons b stream =>
    simp only [List.length_cons, decode_loop]
    split
    · rfl
    · rename_i hne
      have := get_unichar_length U (b :: stream) hne
      simp only [List.length_cons] at this
      rw [decode_loop_fuel U stream.length _ _ (by omega) (le_refl _)]

/-! ## The table -/

theorem lookup_insert (t : Table) (key : List Nat) (value : Nat) (k : List Nat) :
    g_hash_table_lookup (g_hash_table_insert t key value) k =
      if key = k then value else g_hash_table_lookup t k := by
  induction t with
  | nil => simp [g_hash_table_insert, g_hash_table_lookup]
  | cons e t ih =>
    obtain ⟨k0, v0⟩ := e
    simp only [g_hash_table_insert]
    by_cases h : k0 = key
    · subst h
      simp only [if_true, g_hash_table_lookup]
      split <;> rfl
    · simp only [h, if_false, g_hash_table_lookup, ih]
      by_cases h2 : k0 = k
      · subst h2
        simp [Ne.symm h]
      · simp [h2]

theorem sum_insert (t : Table) (key : List Nat) :
    ((g_hash_table_insert t key (g_hash_table_lookup t key + 1)).map Prod.snd).sum =
      (t.map Prod.snd).sum + 1 := by
  induction t with
  | nil => simp [g_hash_table_insert, g_hash_table_lookup]
  | cons e t ih =>
    obtain ⟨k0, v0⟩ := e
    simp only [g_hash_table_insert, g_hash_table_lookup]
    by_cases h : k0 = key
    · simp [h]; omega
    · simp [h, ih]; omega

theorem foldl_callback (l : Table) (c : CharCounts) :
    (l.foldl counts_add_callback c).table = c.table ∧
    (l.foldl counts_add_callback c).total = c.total + (l.map Prod.snd).sum ∧
    (l.foldl counts_add_callback c).max = (l.map Prod.snd).foldl Nat.max c.max := by
  induction l generalizing c with
  | nil => simp
  | cons e l ih =>
    simp only [List.foldl_cons, List.map_cons, List.sum_cons]
    obtain ⟨h1, h2, h3⟩ := ih (counts_add_callback c e)
    refine ⟨by rw [h1]; rfl, ?_, by rw [h3]; rfl⟩
    rw [h2]; simp [counts_add_callback]; omega

/-! ## The ingestion loop -/

theorem shift_three (a b c next : Nat) : shift 3 [a, b, c] next = [b, c, next] := rfl

theorem counts_add_loop_lookup (U : Unichar)
    (hup : ∀ c, U.g_unichar_toupper (U.g_unichar_toupper c) = U.g_unichar_toupper c)
    (fuel : Nat) (input : List Nat) (a b c : Nat) (table : Table)
    (hf : input.length ≤ fuel) (k : List Nat) :
    g_hash_table_lookup (counts_add_loop U fuel input [a, b, c] table) k =
      g_hash_table_lookup table k +
        ((windows3 (b :: c :: decode U input)).filter (fun w => w.all U.g_unichar_isalpha)).countP
          (fun w => trigram_key w = k) := by
  induction fuel generalizing input a b c table with
  | zero =>
    have : input = [] := List.length_eq_zero.mp (by omega)
    subst this
    simp [counts_add_loop, decode, decode_loop, windows3]
  | succ fuel ih =>
    rw [decode_unfold]
    simp only [counts_add_loop]
    by_cases h0 : (get_unichar U input).1 = 0
    · simp [h0, windows3]
    · have hlen := get_unichar_length U input h0
      simp only [h0, if_false, shift_three, get_unichar_upper U hup input h0, windows3]
      by_cases hal : ([b, c, (get_unichar U input).1].all U.g_unichar_isalpha) = true
      · rw [if_pos hal, ih _ _ _ _ _ (by omega), lookup_insert]
        simp only [List.filter_cons, hal, if_true, List.countP_cons, trigram_key]
        by_cases hk : c_string (contract_utf8 [b, c, (get_unichar U input).1]) = k
        · simp only [hk, if_true, decide_True]; omega
        · simp only [hk, if_false, decide_False]; simp
      · rw [if_neg hal, ih _ _ _ _ _ (by omega)]
        simp only [List.filter_cons, hal, if_false, Bool.false_eq_true]

theorem counts_add_loop_sum (U : Unichar)
    (hup : ∀ c, U.g_unichar_toupper (U.g_unichar_toupper c) = U.g_unichar_toupper c)
    (fuel : Nat) (input : List Nat) (a b c : Nat) (table : Table)
    (hf : input.length ≤ fuel) :
    ((counts_add_loop U fuel input [a, b, c] table).map Prod.snd).sum =
      (table.map Prod.snd).sum +
        (windows3 (b :: c :: decode U input)).countP (fun w => w.all U.g_unichar_isalpha) := by
  induction fuel generalizing input a b c table with
  | zero =>
    have : input = [] := List.length_eq_zero.mp (by omega)
    subst this
    simp [counts_add_loop, decode, decode_loop, windows3]
  | succ fuel ih =>
    rw [decode_unfold]
    simp only [counts_add_loop]
    by_cases h0 : (get_unichar U input).1 = 0
    · simp [h0, windows3]
    · have hlen := get_unichar_length U input h0
      simp only [h0, if_false, shift_three, get_unichar_upper U hup input h0, windows3]
      by_cases hal : ([b, c, (get_unichar U input).1].all U.g_unichar_isalpha) = true
      · rw [if_pos hal, ih _ _ _ _ _ (by omega), sum_insert]
        simp only [List.countP_cons, hal, if_true]
        omega
      · rw [if_neg hal, ih _ _ _ _ _ (by omega)]
        simp only [List.countP_cons, hal, if_false, Bool.false_eq_true, Nat.add_zero]

/-! ## The key encoding is injective -/

theorem and_or_continuation (c : Nat) : (c &&& 0x3f) ||| 0x80 = 128 + c % 64 := by
  have h1 : c &&& 0x3f = c % 64 := Nat.and_pow_two_sub_one_eq_mod c 6
  have h2 : c % 64 < 2 ^ 7 := by omega
  have h3 := Nat.mul_add_lt_is_or h2 1
  rw [h1, Nat.lor_comm]
  simpa using h3.symm

theorem or_first (i a x : Nat) (h : x < 2 ^ i) : x ||| (2 ^ i * a) = 2 ^ i * a + x := by
  rw [Nat.lor_comm]
  exact (Nat.mul_add_lt_is_or h a).symm

theorem g_unichar_to_utf8_eq (c : Nat) (hc : c < 2 ^ 32) :
    g_unichar_to_utf8 c =
      if c < 0x80 then [c]
      else if c < 0x800 then [192 + c / 64, 128 + c % 64]
      else if c < 0x10000 then [224 + c / 4096, 128 + c / 64 % 64, 128 + c % 64]
      else if c < 0x200000 then
        [240 + c / 262144, 128 + c / 4096 % 64, 128 + c / 64 % 64, 128 + c % 64]
      else if c < 0x4000000 then
        [248 + c / 16777216, 128 + c / 262144 % 64, 128 + c / 4096 % 64, 128 + c / 64 % 64,
          128 + c % 64]
      else
        [252 + c / 1073741824, 128 + c / 16777216 % 64, 128 + c / 262144 % 64,
          128 + c / 4096 % 64, 128 + c / 64 % 64, 128 + c % 64] := by
  unfold g_unichar_to_utf8
  simp only [utf8_tail, and_or_continuation, Nat.shiftRight_eq_div_pow]
  split_ifs with h1 h2 h3 h4 h5
  · simp [utf8_tail]; omega
  · have := or_first 6 3 (c / 64) (by omega)
    simp [utf8_tail, and_or_continuation, Nat.shiftRight_eq_div_pow] at this ⊢
    rw [this]; omega
  · have := or_first 5 7 (c / 4096) (by omega)
    simp [utf8_tail, and_or_continuation, Nat.shiftRight_eq_div_pow, Nat.div_div_eq_div_mul] at this ⊢
    rw [this]; omega
  · have := or_first 4 15 (c / 262144) (by omega)
    simp [utf8_tail, and_or_continuation, Nat.shiftRight_eq_div_pow, Nat.div_div_eq_div_mul] at this ⊢
    rw [this]; omega
  · have := or_first 3 31 (c / 16777216) (by omega)
    simp [utf8_tail, and_or_continuation, Nat.shiftRight_eq_div_pow, Nat.div_div_eq_div_mul] at this ⊢
    rw [this]; omega
  · have := or_first 2 63 (c / 1073741824) (by omega)
    simp [utf8_tail, and_or_continuation, Nat.shiftRight_eq_div_pow, Nat.div_div_eq_div_mul] at this ⊢
    rw [this]; omega

theorem g_unichar_to_utf8_length (a a' : Nat) (x x' : List Nat)
    (ha : a < 2 ^ 32) (ha' : a' < 2 ^ 32)
    (h : g_unichar_to_utf8 a ++ x = g_unichar_to_utf8 a' ++ x') :
    (g_unichar_to_utf8 a).length = (g_unichar_to_utf8 a').length := by
  rw [g_unichar_to_utf8_eq a ha, g_unichar_to_utf8_eq a' ha'] at h ⊢
  split_ifs at h ⊢ <;>
    simp only [List.cons_append, List.length_cons, List.length_nil] at h ⊢ <;>
    have h1 := List.head_eq_of_cons_eq h <;>
    omega

theorem g_unichar_to_utf8_injective (a a' : Nat) (ha : a < 2 ^ 32) (ha' : a' < 2 ^ 32)
    (h : g_unichar_to_utf8 a = g_unichar_to_utf8 a') : a = a' := by
  rw [g_unichar_to_utf8_eq a ha, g_unichar_to_utf8_eq a' ha'] at h
  split_ifs at h <;> simp at h <;> omega

theorem g_unichar_to_utf8_prefix (a a' : Nat) (x x' : List Nat)
    (ha : a < 2 ^ 32) (ha' : a' < 2 ^ 32)
    (h : g_unichar_to_utf8 a ++ x = g_unichar_to_utf8 a' ++ x') : a = a' ∧ x = x' := by
  have hl := g_unichar_to_utf8_length a a' x x' ha ha' h
  obtain ⟨h1, h2⟩ := List.append_inj h hl
  exact ⟨g_unichar_to_utf8_injective a a' ha ha' h1, h2⟩

theorem g_unichar_to_utf8_nonzero (c : Nat) (h0 : c ≠ 0) (hc : c < 2 ^ 32) :
    ∀ b ∈ g_unichar_to_utf8 c, b ≠ 0 := by
  rw [g_unichar_to_utf8_eq c hc]
  split_ifs <;> (simp; try omega)

theorem c_string_append (l r : List Nat) (h : ∀ b ∈ l, b ≠ 0) :
    c_string (l ++ r) = l ++ c_string r := by
  induction l with
  | nil => rfl
  | cons b l ih =>
    have hb : b ≠ 0 := h b (List.mem_cons_self _ _)
    simp only [c_string, List.cons_append, List.takeWhile_cons, bne_iff_ne, ne_eq, hb,
      not_false_eq_true, decide_True, if_true, List.cons.injEq, true_and]
    exact ih (fun b hb => h b (List.mem_cons_of_mem _ hb))

theorem trigram_key_eq (a b c : Nat) (ha : a ≠ 0 ∧ a < 2 ^ 32) (hb : b ≠ 0 ∧ b < 2 ^ 32)
    (hc : c ≠ 0 ∧ c < 2 ^ 32) :
    trigram_key [a, b, c] =
      g_unichar_to_utf8 a ++ (g_unichar_to_utf8 b ++ (g_unichar_to_utf8 c ++ [])) := by
  simp only [trigram_key, contract_utf8]
  rw [c_string_append _ _ (g_unichar_to_utf8_nonzero a ha.1 ha.2),
    c_string_append _ _ (g_unichar_to_utf8_nonzero b hb.1 hb.2),
    c_string_append _ _ (g_unichar_to_utf8_nonzero c hc.1 hc.2)]
  rfl

theorem trigram_key_injective (a b c a' b' c' : Nat)
    (ha : a ≠ 0 ∧ a < 2 ^ 32) (hb : b ≠ 0 ∧ b < 2 ^ 32) (hc : c ≠ 0 ∧ c < 2 ^ 32)
    (ha' : a' ≠ 0 ∧ a' < 2 ^ 32) (hb' : b' ≠ 0 ∧ b' < 2 ^ 32) (hc' : c' ≠ 0 ∧ c' < 2 ^ 32)
    (h : trigram_key [a, b, c] = trigram_key [a', b', c']) : [a, b, c] = [a', b', c'] := by
  rw [trigram_key_eq a b c ha hb hc, trigram_key_eq a' b' c' ha' hb' hc'] at h
  obtain ⟨h1, h⟩ := g_unichar_to_utf8_prefix _ _ _ _ ha.2 ha'.2 h
  obtain ⟨h2, h⟩ := g_unichar_to_utf8_prefix _ _ _ _ hb.2 hb'.2 h
  obtain ⟨h3, _⟩ := g_unichar_to_utf8_prefix _ _ _ _ hc.2 hc'.2 h
  rw [h1, h2, h3]

/-! ## What `counts_add` stores -/

theorem windows3_mem (s : List Nat) (w : List Nat) (h : w ∈ windows3 s) :
    ∃ x y z, w = [x, y, z] := by
  induction s with
  | nil => simp [windows3] at h
  | cons a s ih =>
    match s, ih, h with
    | [], _, h => simp [windows3] at h
    | [_], _, h => simp [windows3] at h
    | b :: c :: s, ih, h =>
      simp only [windows3, List.mem_cons] at h
      rcases h with h | h
      · exact ⟨a, b, c, h⟩
      · exact ih h

theorem windows3_getElem? (s : List Nat) (i : Nat) :
    (windows3 s)[i]? =
      if i + 2 < s.length then some [s.getD i 0, s.getD (i + 1) 0, s.getD (i + 2) 0]
      else none := by
  induction s generalizing i with
  | nil => simp [windows3]
  | cons a s ih =>
    match s, ih with
    | [], _ => simp [windows3]
    | [_], _ => simp [windows3]
    | b :: c :: s, ih =>
      cases i with
      | zero => simp [windows3]
      | succ i =>
        simp only [windows3, List.getElem?_cons_succ, ih i, List.length_cons]
        by_cases h : i + 2 < s.length + 1 + 1
        · rw [if_pos h, if_pos (by omega)]
          simp
        · rw [if_neg h, if_neg (by omega)]

theorem counts_add_table_lookup (U : Unichar)
    (hup : ∀ c, U.g_unichar_toupper (U.g_unichar_toupper c) = U.g_unichar_toupper c)
    (counts : CharCounts) (input : List Nat) (k : List Nat) :
    g_hash_table_lookup (counts_add U counts (some input)).table k =
      g_hash_table_lookup counts.table k +
        ((windows3 (decode U input)).filter (fun w => w.all U.g_unichar_isalpha)).countP
          (fun w => trigram_key w = k) := by
  rw [decode_unfold]
  simp only [counts_add]
  by_cases h1 : (get_unichar U input).1 = 0
  · simp [h1, windows3]
  · rw [decode_unfold]
    by_cases h2 : (get_unichar U (get_unichar U input).2).1 = 0
    · simp [h1, h2, windows3]
    · simp only [h1, h2, if_false, (foldl_callback _ _).1]
      exact counts_add_loop_lookup U hup _ _ 0 _ _ _ (le_refl _) k

theorem counts_add_total (U : Unichar)
    (hup : ∀ c, U.g_unichar_toupper (U.g_unichar_toupper c) = U.g_unichar_toupper c)
    (counts : CharCounts) (input : List Nat) :
    (counts_add U counts (some input)).total =
      if (decode U input).length < 2 then counts.total
      else (counts.table.map Prod.snd).sum +
        (windows3 (decode U input)).countP (fun w => w.all U.g_unichar_isalpha) := by
  rw [decode_unfold]
  simp only [counts_add]
  by_cases h1 : (get_unichar U input).1 = 0
  · simp [h1]
  · rw [decode_unfold]
    by_cases h2 : (get_unichar U (get_unichar U input).2).1 = 0
    · simp [h1, h2]
    · simp only [h1, h2, if_false, (foldl_callback _ _).2.1, List.length_cons]
      rw [counts_add_loop_sum U hup _ _ 0 _ _ _ (le_refl _), if_neg (by omega), Nat.zero_add]

theorem countP_key_eq_count (U : Unichar)
    (halpha : ∀ c, U.g_unichar_isalpha c = true → c ≠ 0 ∧ c < 2 ^ 32)
    (s : List Nat) (a b c : Nat) (ha : U.g_unichar_isalpha a = true)
    (hb : U.g_unichar_isalpha b = true) (hc : U.g_unichar_isalpha c = true) :
    ((windows3 s).filter (fun w => w.all U.g_unichar_isalpha)).countP
        (fun w => trigram_key w = trigram_key [a, b, c]) =
      (windows3 s).count [a, b, c] := by
  rw [List.countP_filter, List.count]
  apply List.countP_congr
  intro w hw
  obtain ⟨x, y, z, rfl⟩ := windows3_mem s w hw
  simp only [List.all_cons, List.all_nil, Bool.and_true, Bool.and_eq_true, decide_eq_true_eq,
    beq_iff_eq]
  constructor
  · rintro ⟨hk, hx, hy, hz⟩
    exact trigram_key_injective x y z a b c (halpha x hx) (halpha y hy) (halpha z hz)
      (halpha a ha) (halpha b hb) (halpha c hc) hk
  · intro h
    simp only [List.cons.injEq, and_true] at h
    obtain ⟨rfl, rfl, rfl⟩ := h
    exact ⟨rfl, ha, hb, hc⟩

/-- C1. Ingesting a byte source into the empty model: with `s` the decoded
character sequence (the values `get_unichar` returns up to the first 0), the
count stored for a key of three letters `a b c` is the number of positions of
`s` whose window is `[a, b, c]`; the count stored under any key is the number
of all-alphabetic windows of `s` with that key, so a window with a
non-alphabetic character adds nothing; and `total` is the number of
all-alphabetic windows of `s`. -/
theorem counts_add_counts_windows (U : Unichar)
    (hup : ∀ c, U.g_unichar_toupper (U.g_unichar_toupper c) = U.g_unichar_toupper c)
    (halpha : ∀ c, U.g_unichar_isalpha c = true → c ≠ 0 ∧ c < 2 ^ 32)
    (input : List Nat) :
    (∀ a b c, U.g_unichar_isalpha a = true → U.g_unichar_isalpha b = true →
      U.g_unichar_isalpha c = true →
      g_hash_table_lookup (counts_add U initial_counts (some input)).table
          (trigram_key [a, b, c]) =
        (windows3 (decode U input)).count [a, b, c]) ∧
    (∀ key, g_hash_table_lookup (counts_add U initial_counts (some input)).table key =
      ((windows3 (decode U input)).filter (fun w => w.all U.g_unichar_isalpha)).countP
        (fun w => trigram_key w = key)) ∧
    (counts_add U initial_counts (some input)).total =
      (windows3 (decode U input)).countP (fun w => w.all U.g_unichar_isalpha) := by
  have hkey : ∀ key, g_hash_table_lookup (counts_add U initial_counts (some input)).table key =
      ((windows3 (decode U input)).filter (fun w => w.all U.g_unichar_isalpha)).countP
        (fun w => trigram_key w = key) := by
    intro key
    rw [counts_add_table_lookup U hup]
    simp [initial_counts, g_hash_table_lookup]
  refine ⟨?_, hkey, ?_⟩
  · intro a b c ha hb hc
    rw [hkey, countP_key_eq_count U halpha _ a b c ha hb hc]
  · rw [counts_add_total U hup]
    split
    · rename_i hlt
      match hs : decode U input, hlt with
      | [], _ => simp [initial_counts, windows3]
      | [_], _ => simp [initial_counts, windows3]
      | _ :: _ :: _, hlt => exact absurd hlt (by simp)
    · simp [initial_counts]

theorem ascii_toupper_idem (c : Nat) :
    ascii.g_unichar_toupper (ascii.g_unichar_toupper c) = ascii.g_unichar_toupper c := by
  simp only [ascii]
  split_ifs <;> omega

theorem ascii_isalpha_range (c : Nat) (h : ascii.g_unichar_isalpha c = true) :
    c ≠ 0 ∧ c < 2 ^ 32 := by
  simp only [ascii, Bool.or_eq_true, Bool.and_eq_true, decide_eq_true_eq] at h
  omega

/-- Witness of C1: the ASCII tables and the source `THE THE THE`. -/
theorem counts_add_counts_windows_witness :
    (∀ c, ascii.g_unichar_toupper (ascii.g_unichar_toupper c) = ascii.g_unichar_toupper c) ∧
    (∀ c, ascii.g_unichar_isalpha c = true → c ≠ 0 ∧ c < 2 ^ 32) ∧
    ((∀ a b c, ascii.g_unichar_isalpha a = true → ascii.g_unichar_isalpha b = true →
      ascii.g_unichar_isalpha c = true →
      g_hash_table_lookup
          (counts_add ascii initial_counts (some [84, 72, 69, 32, 84, 72, 69, 32, 84, 72, 69])).table
          (trigram_key [a, b, c]) =
        (windows3 (decode ascii [84, 72, 69, 32, 84, 72, 69, 32, 84, 72, 69])).count [a, b, c]) ∧
    (∀ key, g_hash_table_lookup
        (counts_add ascii initial_counts (some [84, 72, 69, 32, 84, 72, 69, 32, 84, 72, 69])).table
        key =
      ((windows3 (decode ascii [84, 72, 69, 32, 84, 72, 69, 32, 84, 72, 69])).filter
        (fun w => w.all ascii.g_unichar_isalpha)).countP (fun w => trigram_key w = key)) ∧
    (counts_add ascii initial_counts (some [84, 72, 69, 32, 84, 72, 69, 32, 84, 72, 69])).total =
      (windows3 (decode ascii [84, 72, 69, 32, 84, 72, 69, 32, 84, 72, 69])).countP
        (fun w => w.all ascii.g_unichar_isalpha)) :=
  ⟨ascii_toupper_idem, ascii_isalpha_range,
    counts_add_counts_windows ascii ascii_toupper_idem ascii_isalpha_range
      [84, 72, 69, 32, 84, 72, 69, 32, 84, 72, 69]⟩

/-! ## The model invariant -/

theorem foldl_max (l : List Nat) (m : Nat) :
    m ≤ l.foldl Nat.max m ∧ (∀ x ∈ l, x ≤ l.foldl Nat.max m) ∧
      (l.foldl Nat.max m = m ∨ l.foldl Nat.max m ∈ l) := by
  induction l generalizing m with
  | nil => simp
  | cons x l ih =>
    obtain ⟨h1, h2, h3⟩ := ih (Nat.max m x)
    simp only [List.foldl_cons, List.mem_cons, forall_eq_or_imp]
    have hm : m ≤ Nat.max m x := Nat.le_max_left m x
    have hx : x ≤ Nat.max m x := Nat.le_max_right m x
    refine ⟨le_trans hm h1, ⟨le_trans hx h1, h2⟩, ?_⟩
    rcases h3 with h3 | h3
    · rw [h3]
      rcases Nat.le_total m x with h | h
      · right; left; exact Nat.max_eq_right h
      · left; exact Nat.max_eq_left h
    · right; right; exact h3

theorem consistent_recomputed (table : Table) :
    Consistent (table.foldl counts_add_callback { table := table, max := 0, total := 0 }) := by
  obtain ⟨ht, hs, hm⟩ := foldl_callback table { table := table, max := 0, total := 0 }
  obtain ⟨_, h2, h3⟩ := foldl_max (table.map Prod.snd) 0
  simp only [] at ht hs hm
  unfold Consistent
  rw [ht, hs, hm]
  refine ⟨by simp, ?_, ?_, ?_⟩
  · intro e he
    exact h2 e.2 (List.mem_map_of_mem _ he)
  · intro h
    simp [h]
  · intro hne
    rcases h3 with h3 | h3
    · obtain ⟨e, t, rfl⟩ := List.exists_cons_of_ne_nil hne
      refine ⟨e, List.mem_cons_self _ _, ?_⟩
      have := h2 e.2 (by simp)
      rw [h3] at this ⊢
      omega
    · obtain ⟨e, he, hv⟩ := List.mem_map.mp h3
      exact ⟨e, he, hv⟩

theorem counts_add_cases (U : Unichar) (counts : CharCounts) (file : Option (List Nat)) :
    counts_add U counts file = counts ∨
      ∃ table : Table, counts_add U counts file =
        table.foldl counts_add_callback { table := table, max := 0, total := 0 } := by
  cases file with
  | none => exact Or.inl rfl
  | some input =>
    simp only [counts_add]
    split
    · exact Or.inl rfl
    · split
      · exact Or.inl rfl
      · exact Or.inr ⟨_, rfl⟩

/-- C2. The invariant "`total` is the sum of the counts in the table and `max`
is the largest count in the table (0 when the table is empty)" holds for the
model built in `main` and, for a model that satisfies it, for the model
`counts_add` leaves (whether the file cannot be opened, yields fewer than two
characters, or is ingested to its end) and for the model `counts_clear`
leaves. -/
theorem consistent_preserved (U : Unichar) (counts : CharCounts) (file : Option (List Nat))
    (h : Consistent counts) :
    Consistent initial_counts ∧ Consistent (counts_add U counts file) ∧
      Consistent (counts_clear counts) := by
  refine ⟨by decide, ?_, by simp [counts_clear, counts_clear_callback, Consistent]⟩
  rcases counts_add_cases U counts file with h1 | ⟨table, h1⟩
  · rw [h1]; exact h
  · rw [h1]; exact consistent_recomputed table

/-- Witness of C2: the model holding `TET` twice and `ETE` once, and the file
`THE THE THE`. -/
theorem consistent_preserved_witness :
    Consistent ⟨[([84, 69, 84], 2), ([69, 84, 69], 1)], 2, 3⟩ ∧
    (Consistent initial_counts ∧
      Consistent (counts_add ascii ⟨[([84, 69, 84], 2), ([69, 84, 69], 1)], 2, 3⟩
        (some [84, 72, 69, 32, 84, 72, 69, 32, 84, 72, 69])) ∧
      Consistent (counts_clear ⟨[([84, 69, 84], 2), ([69, 84, 69], 1)], 2, 3⟩)) :=
  ⟨by decide, consistent_preserved ascii _ _ (by decide)⟩

/-- C3. What the code does on the 11 bytes of `THE THE THE`: every call of
`get_unichar` reads one byte more than the character it returns, so the
decoded sequence is `T E T E T`, and the table holds `TET` twice and `ETE`
once, with `total = 3` and `max = 2`; the count stored for `THE` is 0. -/
theorem counts_add_the_the_the :
    decode ascii [84, 72, 69, 32, 84, 72, 69, 32, 84, 72, 69] = [84, 69, 84, 69, 84] ∧
    counts_add ascii initial_counts (some [84, 72, 69, 32, 84, 72, 69, 32, 84, 72, 69]) =
      { table := [([84, 69, 84], 2), ([69, 84, 69], 1)], max := 2, total := 3 } ∧
    g_hash_table_lookup
      (counts_add ascii initial_counts (some [84, 72, 69, 32, 84, 72, 69, 32, 84, 72, 69])).table
      (trigram_key [84, 72, 69]) = 0 := by
  decide

/-- C4. What the code does on the two bytes of `AB`: the first call of
`get_unichar` validates nothing after the first byte (`max_len` is 0), reads
the second byte, returns `A` and leaves the source empty; the second call
returns 0, so `B` is never returned. -/
theorem get_unichar_skips_byte :
    get_unichar ascii [65, 66] = (65, []) ∧
    get_unichar ascii (get_unichar ascii [65, 66]).2 = (0, []) ∧
    decode ascii [65, 66] = [65] := by
  decide

/-! ## Additivity of ingestion -/

theorem counts_add_loop_lookup_add (U : Unichar) (fuel : Nat) (input read_long : List Nat)
    (table : Table) (k : List Nat) :
    g_hash_table_lookup (counts_add_loop U fuel input read_long table) k =
      g_hash_table_lookup table k +
        g_hash_table_lookup (counts_add_loop U fuel input read_long []) k := by
  induction fuel generalizing input read_long table with
  | zero => simp [counts_add_loop, g_hash_table_lookup]
  | succ fuel ih =>
    simp only [counts_add_loop]
    split
    · simp [g_hash_table_lookup]
    · split
      · rw [ih _ _ (g_hash_table_insert table _ _), ih _ _ (g_hash_table_insert [] _ _),
          lookup_insert, lookup_insert]
        simp only [g_hash_table_lookup]
        generalize c_string (contract_utf8 _) = key
        by_cases hk : key = k
        · subst hk; simp only [if_true]; omega
        · simp only [hk, if_false, Nat.zero_add]
      · exact ih _ _ _

theorem counts_add_loop_sum_add (U : Unichar) (fuel : Nat) (input read_long : List Nat)
    (table : Table) :
    ((counts_add_loop U fuel input read_long table).map Prod.snd).sum =
      (table.map Prod.snd).sum +
        ((counts_add_loop U fuel input read_long []).map Prod.snd).sum := by
  induction fuel generalizing input read_long table with
  | zero => simp [counts_add_loop]
  | succ fuel ih =>
    simp only [counts_add_loop]
    split
    · simp
    · split
      · rw [ih _ _ (g_hash_table_insert table _ _), ih _ _ (g_hash_table_insert [] _ _),
          sum_insert, sum_insert]
        simp only [List.map_nil, List.sum_nil]
        omega
      · exact ih _ _ _

theorem counts_add_lookup_add (U : Unichar) (counts : CharCounts) (file : Option (List Nat))
    (key : List Nat) :
    g_hash_table_lookup (counts_add U counts file).table key =
      g_hash_table_lookup counts.table key +
        g_hash_table_lookup (counts_add U initial_counts file).table key := by
  cases file with
  | none => simp [counts_add, initial_counts, g_hash_table_lookup]
  | some input =>
    simp only [counts_add]
    split
    · simp [initial_counts, g_hash_table_lookup]
    · split
      · simp [initial_counts, g_hash_table_lookup]
      · simp only [(foldl_callback _ _).1, initial_counts]
        exact counts_add_loop_lookup_add U _ _ _ _ key

theorem counts_add_twice_total (U : Unichar) (file : Option (List Nat)) :
    (counts_add U (counts_add U initial_counts file) file).total =
      2 * (counts_add U initial_counts file).total := by
  cases file with
  | none => simp [counts_add, initial_counts]
  | some input =>
    simp only [counts_add]
    split
    · simp [initial_counts]
    · split
      · simp [initial_counts]
      · simp only [(foldl_callback _ _).1, (foldl_callback _ _).2.1, initial_counts]
        rw [counts_add_loop_sum_add]
        omega

/-- C10. `counts_add` is additive: for every model and every file, the count
of every key after the ingestion is its count before plus its count after
ingesting the same file into the empty model, so no count decreases; and
ingesting a file twice into the empty model gives every key twice the count,
and twice the total, of ingesting it once. -/
theorem counts_add_additive (U : Unichar) (counts : CharCounts) (file : Option (List Nat))
    (key : List Nat) :
    g_hash_table_lookup (counts_add U counts file).table key =
      g_hash_table_lookup counts.table key +
        g_hash_table_lookup (counts_add U initial_counts file).table key ∧
    g_hash_table_lookup counts.table key ≤
      g_hash_table_lookup (counts_add U counts file).table key ∧
    g_hash_table_lookup (counts_add U (counts_add U initial_counts file) file).table key =
      2 * g_hash_table_lookup (counts_add U initial_counts file).table key ∧
    (counts_add U (counts_add U initial_counts file) file).total =
      2 * (counts_add U initial_counts file).total := by
  refine ⟨counts_add_lookup_add U counts file key, ?_, ?_, counts_add_twice_total U file⟩
  · rw [counts_add_lookup_add U counts file key]
    omega
  · rw [counts_add_lookup_add U (counts_add U initial_counts file) file key]
    omega

/-! ## The line scanner `next_in_line` -/

theorem line_rest_cons (c : Nat) (rest : List Nat) :
    line_rest (c :: rest) = if c = 13 ∨ c = 10 then [] else c :: line_rest rest := by
  unfold line_rest
  rw [List.takeWhile_cons]
  by_cases h : c = 13 ∨ c = 10
  · have : (c == 13 || c == 10) = true := by simpa using h
    simp only [this, Bool.not_true, if_pos h]
    rfl
  · have : (c == 13 || c == 10) = false := by simpa using h
    simp only [this, Bool.not_false, if_true, if_neg h]

theorem line_end_cons (c : Nat) (rest : List Nat) :
    line_end (c :: rest) = if c = 13 ∨ c = 10 then c :: rest else line_end rest := by
  unfold line_end
  rw [line_rest_cons]
  split <;> rfl

theorem next_in_line_eq (U : Unichar) (iter : List Nat) :
    next_in_line U iter =
      match (line_rest iter).find? U.g_unichar_isalpha with
      | some c =>
        (U.g_unichar_toupper c,
          iter.drop (((line_rest iter).takeWhile (fun c => !U.g_unichar_isalpha c)).length + 1))
      | none => (0, line_end iter) := by
  induction iter with
  | nil => rfl
  | cons c rest ih =>
    rw [line_rest_cons, line_end_cons]
    by_cases hc : c = 13 ∨ c = 10
    · simp only [next_in_line, if_pos hc, List.find?_nil]
    · simp only [next_in_line, if_neg hc]
      by_cases ha : U.g_unichar_isalpha c = true
      · simp [ha]
      · have ha' : U.g_unichar_isalpha c = false := by simpa using ha
        simp only [ha, if_false, ih, List.find?_cons, ha', List.takeWhile_cons, Bool.not_false,
          if_true, List.length_cons, List.drop_succ_cons]
        rfl

theorem next_in_line_line_end (U : Unichar) (iter : List Nat) :
    next_in_line U (line_end iter) = (0, line_end iter) := by
  induction iter with
  | nil => rfl
  | cons c rest ih =>
    rw [line_end_cons]
    by_cases hc : c = 13 ∨ c = 10
    · simp only [if_pos hc, next_in_line]
    · simpa only [if_neg hc] using ih

theorem line_end_head (iter : List Nat) :
    line_end iter = [] ∨ ∃ c rest, line_end iter = c :: rest ∧ (c = 13 ∨ c = 10) := by
  induction iter with
  | nil => exact Or.inl rfl
  | cons c rest ih =>
    rw [line_end_cons]
    by_cases hc : c = 13 ∨ c = 10
    · right
      exact ⟨c, rest, by simp only [if_pos hc], hc⟩
    · simpa only [if_neg hc] using ih

/-- C8. For every cursor position: when the rest of the line (up to the first
carriage return, line feed or the buffer end) holds an alphabetic character,
`next_in_line` returns the uppercase mapping of the first one and leaves the
cursor just after it; otherwise it returns 0 and leaves the cursor at the end
of the line, which is the buffer end or a carriage return or line feed, and
every later call returns 0 and leaves the cursor there. -/
theorem next_in_line_spec (U : Unichar) (iter : List Nat) :
    (next_in_line U iter =
      match (line_rest iter).find? U.g_unichar_isalpha with
      | some c =>
        (U.g_unichar_toupper c,
          iter.drop (((line_rest iter).takeWhile (fun c => !U.g_unichar_isalpha c)).length + 1))
      | none => (0, line_end iter)) ∧
    (line_end iter = [] ∨ ∃ c rest, line_end iter = c :: rest ∧ (c = 13 ∨ c = 10)) ∧
    ((line_rest iter).find? U.g_unichar_isalpha = none →
      ∀ n, next_in_line U ((fun it => (next_in_line U it).2)^[n] iter) = (0, line_end iter)) := by
  refine ⟨next_in_line_eq U iter, line_end_head iter, ?_⟩
  intro hnone n
  have h0 : next_in_line U iter = (0, line_end iter) := by
    rw [next_in_line_eq, hnone]
  cases n with
  | zero => exact h0
  | succ n =>
    have : (fun it => (next_in_line U it).2)^[n + 1] iter = line_end iter := by
      rw [Function.iterate_succ_apply]
      simp only [h0]
      induction n with
      | zero => rfl
      | succ n ih =>
        rw [Function.iterate_succ_apply, next_in_line_line_end]
        exact ih
    rw [this, next_in_line_line_end]

/-- Witness of C8: the line `1 2` followed by a line feed and `a`. -/
theorem next_in_line_spec_witness :
    (line_rest [49, 32, 50, 10, 97]).find? ascii.g_unichar_isalpha = none ∧
    next_in_line ascii [49, 32, 50, 10, 97] = (0, [10, 97]) ∧
    next_in_line ascii ((fun it => (next_in_line ascii it).2)^[3] [49, 32, 50, 10, 97]) =
      (0, line_end [49, 32, 50, 10, 97]) :=
  ⟨by decide, by decide, (next_in_line_spec ascii [49, 32, 50, 10, 97]).2.2 (by decide) 3⟩

/-! ## The arrow decision -/

theorem frequency_eq_foldl (counts : CharCounts) (surrounding : List (List Nat)) (y1 x1 : Int) :
    frequency counts surrounding y1 x1 =
      directions.foldl (fun f d =>
        if eligible surrounding y1 x1 d = true then
          Dbl.MAX f (trigram_frequency counts surrounding d.1 d.2 y1 x1)
        else f) (Dbl.fin 0) := by
  simp only [frequency, directions, offsets, eligible, List.foldl, List.flatMap, List.map,
    List.flatten, List.append, decide_eq_true_eq]

theorem mem_directions (d : Int × Int) : d ∈ directions ↔ d.1 ∈ offsets ∧ d.2 ∈ offsets := by
  obtain ⟨y, x⟩ := d
  simp only [directions, offsets, List.mem_flatMap, List.mem_map, Prod.mk.injEq]
  constructor
  · rintro ⟨y', hy, x', hx, rfl, rfl⟩
    exact ⟨hy, hx⟩
  · rintro ⟨hy, hx⟩
    exact ⟨y, hy, x, hx, rfl, rfl⟩

theorem MAX_fin (a b : ℚ) : Dbl.MAX (Dbl.fin a) (Dbl.fin b) = Dbl.fin (max a b) := by
  simp only [Dbl.MAX, Dbl.gt, decide_eq_true_eq]
  split
  · rename_i h; rw [max_eq_left (le_of_lt h)]
  · rename_i h; rw [max_eq_right (not_lt.mp h)]

theorem foldl_MAX_fin {α : Type} (l : List α) (P : α → Bool) (q : α → ℚ) (a : ℚ) :
    l.foldl (fun f d => if P d = true then Dbl.MAX f (Dbl.fin (q d)) else f) (Dbl.fin a) =
      Dbl.fin (((l.filter P).map q).foldl max a) := by
  induction l generalizing a with
  | nil => rfl
  | cons d l ih =>
    simp only [List.foldl_cons, List.filter_cons]
    split
    · rw [MAX_fin, ih]; rfl
    · rw [ih]

theorem lt_foldl_max (l : List ℚ) (a t : ℚ) :
    t < l.foldl max a ↔ t < a ∨ ∃ q ∈ l, t < q := by
  induction l generalizing a with
  | nil => simp
  | cons x l ih =>
    simp only [List.foldl_cons, ih, lt_max_iff, List.mem_cons, exists_eq_or_imp]
    tauto

theorem foldl_MAX_nan {α : Type} (l : List α) (P : α → Bool) (init : Dbl)
    (h : init = Dbl.fin 0 ∨ init = Dbl.nan) :
    l.foldl (fun f d => if P d = true then Dbl.MAX f Dbl.nan else f) init = Dbl.fin 0 ∨
      l.foldl (fun f d => if P d = true then Dbl.MAX f Dbl.nan else f) init = Dbl.nan := by
  induction l generalizing init with
  | nil => exact h
  | cons d l ih =>
    simp only [List.foldl_cons]
    apply ih
    split
    · right
      rcases h with h | h <;> subst h <;> rfl
    · exact h

theorem trigram_frequency_fin (counts : CharCounts) (surrounding : List (List Nat))
    (y0 x0 y1 x1 : Int) (h : counts.total ≠ 0) :
    trigram_frequency counts surrounding y0 x0 y1 x1 =
      Dbl.fin ((g_hash_table_lookup counts.table
        (trigram_key [cell surrounding y0 x0, cell surrounding 0 0, cell surrounding y1 x1]) : ℚ)
        / (counts.total : ℚ)) := by
  have : (counts.total : ℚ) ≠ 0 := by exact_mod_cast h
  simp [trigram_frequency, Dbl.div, Dbl.ofNat, this, trigram_key]

theorem lookup_le_sum (t : Table) (key : List Nat) :
    g_hash_table_lookup t key ≤ (t.map Prod.snd).sum := by
  induction t with
  | nil => simp [g_hash_table_lookup]
  | cons e t ih =>
    obtain ⟨k, v⟩ := e
    simp only [g_hash_table_lookup, List.map_cons, List.sum_cons]
    split <;> omega

theorem trigram_frequency_nan (counts : CharCounts) (surrounding : List (List Nat))
    (y0 x0 y1 x1 : Int) (hc : Consistent counts) (h : counts.total = 0) :
    trigram_frequency counts surrounding y0 x0 y1 x1 = Dbl.nan := by
  have hl := lookup_le_sum counts.table
    (c_string (contract_utf8 [cell surrounding y0 x0, cell surrounding 0 0, cell surrounding y1 x1]))
  rw [← hc.1, h] at hl
  have h0 := Nat.le_zero.mp hl
  simp [trigram_frequency, Dbl.div, Dbl.ofNat, h, h0]

theorem frequency_best (counts : CharCounts) (surrounding : List (List Nat)) (y1 x1 : Int)
    (h : counts.total ≠ 0) :
    frequency counts surrounding y1 x1 = Dbl.fin (best counts surrounding y1 x1) := by
  rw [frequency_eq_foldl, best, ← foldl_MAX_fin]
  congr 1
  funext f d
  rw [trigram_frequency_fin _ _ _ _ _ _ h]

theorem frequency_total_zero (counts : CharCounts) (surrounding : List (List Nat)) (y1 x1 : Int)
    (hc : Consistent counts) (h : counts.total = 0) :
    frequency counts surrounding y1 x1 = Dbl.fin 0 ∨
      frequency counts surrounding y1 x1 = Dbl.nan := by
  rw [frequency_eq_foldl]
  have := foldl_MAX_nan directions (eligible surrounding y1 x1) (Dbl.fin 0) (Or.inl rfl)
  have hf : (fun (f : Dbl) (d : Int × Int) =>
      if eligible surrounding y1 x1 d = true then
        Dbl.MAX f (trigram_frequency counts surrounding d.1 d.2 y1 x1) else f) =
      (fun f d => if eligible surrounding y1 x1 d = true then Dbl.MAX f Dbl.nan else f) := by
    funext f d
    rw [trigram_frequency_nan _ _ _ _ _ _ hc h]
  rw [hf]
  exact this

theorem gt_frequency_iff (counts : CharCounts) (surrounding : List (List Nat))
    (threshold : Dbl) (y1 x1 : Int) (hc : counts.total ≠ 0 ∨ Consistent counts)
    (ht : Dbl.le (Dbl.fin 0) threshold = true) :
    Dbl.gt (frequency counts surrounding y1 x1) threshold = true ↔
      ∃ d ∈ directions, eligible surrounding y1 x1 d = true ∧
        Dbl.gt (trigram_frequency counts surrounding d.1 d.2 y1 x1) threshold = true := by
  by_cases h : counts.total = 0
  · have hc : Consistent counts := hc.resolve_left (fun hne => hne h)
    have hr : ¬ ∃ d ∈ directions, eligible surrounding y1 x1 d = true ∧
        Dbl.gt (trigram_frequency counts surrounding d.1 d.2 y1 x1) threshold = true := by
      rintro ⟨d, _, _, hd⟩
      rw [trigram_frequency_nan _ _ _ _ _ _ hc h] at hd
      cases threshold <;> simp [Dbl.gt] at hd
    have hl : ¬ Dbl.gt (frequency counts surrounding y1 x1) threshold = true := by
      rcases frequency_total_zero counts surrounding y1 x1 hc h with h0 | h0 <;> rw [h0]
      · cases threshold <;> simp_all [Dbl.gt, Dbl.le]
      · cases threshold <;> simp [Dbl.gt]
    exact ⟨fun h => absurd h hl, fun h => absurd h hr⟩
  · rw [frequency_best _ _ _ _ h]
    cases threshold with
    | fin t =>
      have ht0 : (0 : ℚ) ≤ t := by simpa [Dbl.le] using ht
      simp only [Dbl.gt, decide_eq_true_eq, best, lt_foldl_max, List.mem_map, List.mem_filter]
      constructor
      · rintro (h0 | ⟨q, ⟨d, ⟨hd, he⟩, rfl⟩, hq⟩)
        · exact absurd h0 (not_lt.mpr ht0)
        · refine ⟨d, hd, he, ?_⟩
          rw [trigram_frequency_fin _ _ _ _ _ _ h]
          simpa [Dbl.gt] using hq
      · rintro ⟨d, hd, he, hq⟩
        rw [trigram_frequency_fin _ _ _ _ _ _ h] at hq
        exact Or.inr ⟨_, ⟨d, ⟨hd, he⟩, rfl⟩, by simpa [Dbl.gt] using hq⟩
    | pinf =>
      simp only [Dbl.gt, Bool.false_eq_true, false_iff, not_exists, not_and]
      intro d _ _
      rw [trigram_frequency_fin _ _ _ _ _ _ h]
      simp [Dbl.gt]
    | ninf => simp [Dbl.le] at ht
    | nan => simp [Dbl.le] at ht

/-- C5. For every model whose `total` is not 0 or that satisfies the model
invariant (so for every model the program builds), every neighborhood, every
threshold that is at least 0 and every direction `(y1, x1)`: `draw` strokes
the arrow toward `(y1, x1)` exactly when the
direction is not the center, its cell is present, and some direction
`(y0, x0)` that is not the center, differs from `(y1, x1)` and has a present
cell gives `count(key [cell (y0, x0), center, cell (y1, x1)]) / total` above
the threshold; and when `total` is not 0 the value compared with the
threshold is `best`, the maximum of those quotients, 0 when there is no such
direction. -/
theorem arrow_iff_exists (counts : CharCounts) (surrounding : List (List Nat))
    (threshold : Dbl) (y1 x1 : Int) (hc : counts.total ≠ 0 ∨ Consistent counts)
    (ht : Dbl.le (Dbl.fin 0) threshold = true) :
    (arrow counts surrounding threshold y1 x1 = true ↔
      (x1 ≠ 0 ∨ y1 ≠ 0) ∧ cell surrounding y1 x1 ≠ 0 ∧
        ∃ y0 ∈ offsets, ∃ x0 ∈ offsets, (x0 ≠ 0 ∨ y0 ≠ 0) ∧ (x0 ≠ x1 ∨ y0 ≠ y1) ∧
          cell surrounding y0 x0 ≠ 0 ∧
          Dbl.gt (trigram_frequency counts surrounding y0 x0 y1 x1) threshold = true) ∧
    (counts.total ≠ 0 →
      frequency counts surrounding y1 x1 = Dbl.fin (best counts surrounding y1 x1) ∧
      (arrow counts surrounding threshold y1 x1 = true ↔
        (x1 ≠ 0 ∨ y1 ≠ 0) ∧ cell surrounding y1 x1 ≠ 0 ∧
          Dbl.gt (Dbl.fin (best counts surrounding y1 x1)) threshold = true)) := by
  have harrow : arrow counts surrounding threshold y1 x1 = true ↔
      (x1 ≠ 0 ∨ y1 ≠ 0) ∧ cell surrounding y1 x1 ≠ 0 ∧
        Dbl.gt (frequency counts surrounding y1 x1) threshold = true := by
    simp only [arrow, Bool.and_eq_true, decide_eq_true_eq, ne_eq, and_assoc]
    constructor
    · rintro ⟨h1, h2, h3⟩
      exact ⟨h1, fun h => h2 h.symm, h3⟩
    · rintro ⟨h1, h2, h3⟩
      exact ⟨h1, fun h => h2 h.symm, h3⟩
  constructor
  · rw [harrow, gt_frequency_iff counts surrounding threshold y1 x1 hc ht]
    constructor
    · rintro ⟨h1, h2, ⟨y0, x0⟩, hd, he, hg⟩
      obtain ⟨hy0, hx0⟩ := (mem_directions _).mp hd
      simp only [eligible, decide_eq_true_eq] at he
      exact ⟨h1, h2, y0, hy0, x0, hx0, he.1, he.2.1, fun h => he.2.2 h.symm, hg⟩
    · rintro ⟨h1, h2, y0, hy0, x0, hx0, h3, h4, h5, hg⟩
      refine ⟨h1, h2, (y0, x0), (mem_directions _).mpr ⟨hy0, hx0⟩, ?_, hg⟩
      simp only [eligible, decide_eq_true_eq]
      exact ⟨h3, h4, fun h => h5 h.symm⟩
  · intro h
    refine ⟨frequency_best counts surrounding y1 x1 h, ?_⟩
    rw [harrow, frequency_best counts surrounding y1 x1 h]

theorem cat_model_consistent : Consistent cat_model := by decide

/-- Witness of C5: the model of `CAT` and `BAT`, the neighborhood `C A T`,
the threshold 1/4 and the direction east. -/
theorem arrow_iff_exists_witness :
    (cat_model.total ≠ 0 ∨ Consistent cat_model) ∧
    Dbl.le (Dbl.fin 0) (Dbl.fin (1 / 4)) = true ∧
    (arrow cat_model cat_neighborhood (Dbl.fin (1 / 4)) 0 1 = true ↔
      ((1 : Int) ≠ 0 ∨ (0 : Int) ≠ 0) ∧ cell cat_neighborhood 0 1 ≠ 0 ∧
        ∃ y0 ∈ offsets, ∃ x0 ∈ offsets, (x0 ≠ 0 ∨ y0 ≠ 0) ∧ (x0 ≠ 1 ∨ y0 ≠ 0) ∧
          cell cat_neighborhood y0 x0 ≠ 0 ∧
          Dbl.gt (trigram_frequency cat_model cat_neighborhood y0 x0 0 1) (Dbl.fin (1 / 4))
            = true) :=
  ⟨Or.inr cat_model_consistent, by simp [Dbl.le],
    (arrow_iff_exists cat_model cat_neighborhood (Dbl.fin (1 / 4)) 0 1
      (Or.inr cat_model_consistent) (by simp [Dbl.le])).1⟩

/-! ## The example of `CAT` and `BAT` -/

theorem cat_frequency_east : frequency cat_model cat_neighborhood 0 1 = Dbl.fin (1 / 2) := by
  rw [frequency_best _ _ _ _ (by decide)]
  simp [best, directions, offsets, eligible, cell, cat_neighborhood, cat_model, trigram_key,
    contract_utf8, g_unichar_to_utf8, utf8_tail, c_string, g_hash_table_lookup]
  norm_num

theorem cat_frequency_west : frequency cat_model cat_neighborhood 0 (-1) = Dbl.fin 0 := by
  rw [frequency_best _ _ _ _ (by decide)]
  simp [best, directions, offsets, eligible, cell, cat_neighborhood, cat_model, trigram_key,
    contract_utf8, g_unichar_to_utf8, utf8_tail, c_string, g_hash_table_lookup]

/-- C6, as stated, fails: at threshold 0 no arrow is stroked toward west. The
key for west is `[T, A, C]`, which the model does not hold. -/
theorem cat_no_arrow_west : arrow cat_model cat_neighborhood (Dbl.fin 0) 0 (-1) = false := by
  simp [arrow, cat_frequency_west, Dbl.gt]

/-- C6, amended. In the model of `CAT` and `BAT` (five each, `total = 10`) and
the neighborhood with center `A`, west `C`, east `T`: the frequency of `CAT`
is 1/2, and for every threshold `t` with `0 ≤ t < 1/2` the arrow toward east
is stroked and the arrow toward west is not. -/
theorem cat_arrows (t : ℚ) (h0 : 0 ≤ t) (h1 : t < 1 / 2) :
    trigram_frequency cat_model cat_neighborhood 0 (-1) 0 1 = Dbl.fin (1 / 2) ∧
    arrow cat_model cat_neighborhood (Dbl.fin t) 0 1 = true ∧
    arrow cat_model cat_neighborhood (Dbl.fin t) 0 (-1) = false := by
  refine ⟨?_, ?_, ?_⟩
  · rw [trigram_frequency_fin _ _ _ _ _ _ (by decide)]
    simp [cell, cat_neighborhood, cat_model, trigram_key, contract_utf8, g_unichar_to_utf8,
      utf8_tail, c_string, g_hash_table_lookup]
    norm_num
  · simp only [arrow, cat_frequency_east, Dbl.gt, Bool.and_eq_true, decide_eq_true_eq]
    exact ⟨⟨Or.inl (by decide), by decide⟩, h1⟩
  · simp only [arrow, cat_frequency_west, Dbl.gt, Bool.and_eq_false_iff, decide_eq_false_iff_not]
    exact Or.inr (not_lt.mpr h0)

/-- Witness of C6: the threshold 1/4. -/
theorem cat_arrows_witness :
    (0 : ℚ) ≤ 1 / 4 ∧ (1 / 4 : ℚ) < 1 / 2 ∧
    trigram_frequency cat_model cat_neighborhood 0 (-1) 0 1 = Dbl.fin (1 / 2) ∧
    arrow cat_model cat_neighborhood (Dbl.fin (1 / 4)) 0 1 = true ∧
    arrow cat_model cat_neighborhood (Dbl.fin (1 / 4)) 0 (-1) = false :=
  ⟨by norm_num, by norm_num, cat_arrows (1 / 4) (by norm_num) (by norm_num)⟩

/-! ## The threshold -/

theorem gt_of_le (f : Dbl) (a b : ℚ) (h : b ≤ a) (hg : Dbl.gt f (Dbl.fin a) = true) :
    Dbl.gt f (Dbl.fin b) = true := by
  cases f with
  | fin q =>
    simp only [Dbl.gt, decide_eq_true_eq] at hg ⊢
    exact lt_of_le_of_lt h hg
  | pinf => rfl
  | ninf => simp [Dbl.gt] at hg
  | nan => simp [Dbl.gt] at hg

theorem frequency_threshold_fin (counts : CharCounts) (value : ℚ) (h : 0 < counts.total) :
    frequency_threshold counts value =
      Dbl.fin ((counts.max : ℚ) / (counts.total : ℚ) * (1 - value)) := by
  have : (counts.total : ℚ) ≠ 0 := by
    have : counts.total ≠ 0 := by omega
    exact_mod_cast this
  simp [frequency_threshold, frequency_max, Dbl.div, Dbl.ofNat, Dbl.mul, Dbl.sub, this]

/-- C9. For every model with `total > 0`, every neighborhood and every two
slider values `v1 ≤ v2` (those in [0, 1] among them): the threshold
`(max / total) * (1 - v)` at `v2` is at most the threshold at `v1`, and every
direction that gets an arrow at `v1` gets an arrow at `v2`. -/
theorem threshold_monotone (counts : CharCounts) (surrounding : List (List Nat))
    (v1 v2 : ℚ) (htotal : 0 < counts.total) (h12 : v1 ≤ v2) :
    Dbl.le (frequency_threshold counts v2) (frequency_threshold counts v1) = true ∧
    ∀ y1 x1, arrow counts surrounding (frequency_threshold counts v1) y1 x1 = true →
      arrow counts surrounding (frequency_threshold counts v2) y1 x1 = true := by
  rw [frequency_threshold_fin counts v1 htotal, frequency_threshold_fin counts v2 htotal]
  have hm : (0 : ℚ) ≤ (counts.max : ℚ) / (counts.total : ℚ) :=
    div_nonneg (Nat.cast_nonneg _) (Nat.cast_nonneg _)
  have hle : (counts.max : ℚ) / (counts.total : ℚ) * (1 - v2) ≤
      (counts.max : ℚ) / (counts.total : ℚ) * (1 - v1) :=
    mul_le_mul_of_nonneg_left (by linarith) hm
  refine ⟨by simpa [Dbl.le] using hle, ?_⟩
  intro y1 x1 h
  simp only [arrow, Bool.and_eq_true] at h ⊢
  exact ⟨h.1, gt_of_le _ _ _ hle h.2⟩

/-- Witness of C9: the model of `CAT` and `BAT`, the slider values 1/4 and
1/2. -/
theorem threshold_monotone_witness :
    0 < cat_model.total ∧ (1 / 4 : ℚ) ≤ 1 / 2 ∧
    Dbl.le (frequency_threshold cat_model (1 / 2)) (frequency_threshold cat_model (1 / 4)) = true ∧
    (arrow cat_model cat_neighborhood (frequency_threshold cat_model (1 / 4)) 0 1 = true →
      arrow cat_model cat_neighborhood (frequency_threshold cat_model (1 / 2)) 0 1 = true) :=
  ⟨by decide, by norm_num,
    (threshold_monotone cat_model cat_neighborhood (1 / 4) (1 / 2) (by decide)
      (by norm_num)).1,
    (threshold_monotone cat_model cat_neighborhood (1 / 4) (1 / 2) (by decide)
      (by norm_num)).2 0 1⟩

/-! ## The scan of `draw` -/

theorem letters_nil (U : Unichar) : letters U [] = [] := rfl

theorem letters_cons (U : Unichar) (c : Nat) (l : List Nat) :
    letters U (c :: l) =
      if U.g_unichar_isalpha c = true then U.g_unichar_toupper c :: letters U l
      else letters U l := by
  unfold letters
  rw [List.filter_cons]
  split <;> rfl

theorem next_in_line_letters (U : Unichar) (iter : List Nat) :
    (next_in_line U iter).1 = (letters U (line_rest iter)).headD 0 ∧
    letters U (line_rest (next_in_line U iter).2) = (letters U (line_rest iter)).tail := by
  induction iter with
  | nil => exact ⟨rfl, rfl⟩
  | cons c rest ih =>
    rw [line_rest_cons]
    by_cases hc : c = 13 ∨ c = 10
    · simp only [next_in_line, if_pos hc, letters_nil, List.headD_nil, List.tail_nil,
        line_rest_cons, true_and]
    · simp only [next_in_line, if_neg hc, letters_cons]
      by_cases ha : U.g_unichar_isalpha c = true
      · simp only [if_pos ha, List.headD_cons, List.tail_cons, and_self]
      · simp only [if_neg ha]
        exact ih

theorem letter_at_succ (l : List Nat) (j : Nat) : letter_at l (j + 1) = l.getD j 0 := by
  simp [letter_at]

theorem headD_drop (l : List Nat) (j : Nat) : (l.drop j).headD 0 = l.getD j 0 := by
  induction l generalizing j with
  | nil => simp
  | cons a l ih =>
    cases j with
    | zero => rfl
    | succ j => simp

theorem row_shift_at (U : Unichar) (l : List Nat) (k : Nat) (r : Row) (h : RowAt U l k r) :
    (row_shift U r).surrounding = window_at l k ∧ RowAt U l (k + 1) (row_shift U r) := by
  obtain ⟨hs, hl⟩ := h
  unfold row_shift
  by_cases hh : r.has_line = true
  · simp only [hh, if_true] at hl ⊢
    obtain ⟨h1, h2⟩ := next_in_line_letters U r.iter
    have hs' : shift 3 r.surrounding (next_in_line U r.iter).1 = window_at l k := by
      rw [hs, shift_three, h1, hl, headD_drop, window_at, letter_at_succ, letter_at_succ]
    refine ⟨hs', ?_, ?_⟩
    · simp only [hs', window_at, Nat.add_sub_cancel]
    · simp only [if_true, h2, hl, List.tail_drop]
  · simp only [hh] at hl ⊢
    subst hl
    simp only [Bool.false_eq_true, if_false] 
    refine ⟨by rw [hs]; simp [window_at, letter_at], ?_, by simp [hh]⟩
    rw [hs]; simp [letter_at]

theorem row_init_at (U : Unichar) (buffer : List Nat) (has_line : Bool) (line_number : Nat) :
    RowAt U
      (if has_line = true then
        letters U (line_rest (gtk_text_buffer_get_iter_at_line buffer line_number)) else [])
      0 (row_init U buffer has_line line_number) := by
  unfold row_init RowAt
  cases has_line with
  | false => simp [letter_at]
  | true =>
    obtain ⟨h1, h2⟩ := next_in_line_letters U
      (gtk_text_buffer_get_iter_at_line buffer line_number)
    simp only [if_true, h1, h2, List.set, letter_at_succ, List.drop_one, and_true]
    generalize letters U (line_rest (gtk_text_buffer_get_iter_at_line buffer line_number)) = l
    cases l <;> simp [letter_at]

theorem draw_columns_at (U : Unichar) (la lc lb : List Nat) (hnz : ∀ c ∈ lc, c ≠ 0)
    (fuel k : Nat) (r0 r1 r2 : Row) (h0 : RowAt U la k r0) (h1 : RowAt U lc k r1)
    (h2 : RowAt U lb k r2) (hf : lc.length - k < fuel) :
    draw_columns U fuel [r0, r1, r2] =
      (List.range' k (lc.length - k)).map
        (fun j => [window_at la j, window_at lc j, window_at lb j]) := by
  induction fuel generalizing k r0 r1 r2 with
  | zero => omega
  | succ fuel ih =>
    have hcell : cell ([r0, r1, r2].map Row.surrounding) 0 1 = lc.getD k 0 := by
      simp [cell, h1.1, letter_at]
    simp only [draw_columns, hcell]
    by_cases hk : k < lc.length
    · have hne : lc.getD k 0 ≠ 0 := by
        rw [List.getD_eq_getElem _ _ hk]
        exact hnz _ (List.getElem_mem _)
      obtain ⟨s0, n0⟩ := row_shift_at U la k r0 h0
      obtain ⟨s1, n1⟩ := row_shift_at U lc k r1 h1
      obtain ⟨s2, n2⟩ := row_shift_at U lb k r2 h2
      have hlen : lc.length - k = (lc.length - (k + 1)) + 1 := by omega
      rw [if_pos hne, hlen, List.range'_succ]
      simp only [List.map_cons, List.map_nil, s0, s1, s2, List.cons.injEq, true_and]
      exact ih (k + 1) _ _ _ n0 n1 n2 (by omega)
    · have h0' : lc.getD k 0 = 0 := by
        rw [List.getD_eq_default _ _ (by omega)]
      have hlen : lc.length - k = 0 := by omega
      rw [if_neg (by rw [h0']; simp), hlen]
      rfl

theorem gtk_after_line_suffix (buffer : List Nat) : gtk_after_line buffer <:+ buffer := by
  induction buffer with
  | nil => exact List.suffix_refl _
  | cons c rest ih =>
    cases rest with
    | nil => exact List.nil_suffix
    | cons d rest =>
      simp only [gtk_after_line]
      split
      · exact (List.suffix_cons d rest).trans (List.suffix_cons c _)
      · split
        · exact List.suffix_cons c _
        · exact ih.trans (List.suffix_cons c _)

theorem get_iter_at_line_suffix (buffer : List Nat) (line_number : Nat) :
    gtk_text_buffer_get_iter_at_line buffer line_number <:+ buffer := by
  induction line_number generalizing buffer with
  | zero => exact List.suffix_refl _
  | succ n ih => exact (ih _).trans (gtk_after_line_suffix buffer)

theorem line_rest_eq_gtk (iter : List Nat) (h : 0x2029 ∉ iter) :
    line_rest iter = iter.takeWhile (fun c => !(c == 10 || c == 13 || c == 0x2029)) := by
  induction iter with
  | nil => rfl
  | cons c rest ih =>
    have hc : c ≠ 0x2029 := fun hc => h (hc ▸ List.mem_cons_self _ _)
    have hr : 0x2029 ∉ rest := fun hr => h (List.mem_cons_of_mem _ hr)
    rw [line_rest_cons, List.takeWhile_cons, ih hr]
    by_cases h1 : c = 13 ∨ c = 10
    · have : (c == 10 || c == 13 || c == 0x2029) = true := by
        rcases h1 with h1 | h1 <;> simp [h1]
      simp only [if_pos h1, this, Bool.not_true, Bool.false_eq_true, if_false]
    · have : (c == 10 || c == 13 || c == 0x2029) = false := by
        simp only [not_or] at h1
        simp [h1.1, h1.2, hc]
      simp only [if_neg h1, this, Bool.not_false, if_true]

theorem line_rest_iter_eq_gtk_line (buffer : List Nat) (line_number : Nat)
    (h : 0x2029 ∉ buffer) :
    line_rest (gtk_text_buffer_get_iter_at_line buffer line_number) =
      gtk_line buffer line_number :=
  line_rest_eq_gtk _ (fun hm => h ((get_iter_at_line_suffix buffer line_number).subset hm))

theorem letters_ne_zero (U : Unichar)
    (hz : ∀ c, U.g_unichar_isalpha c = true → U.g_unichar_toupper c ≠ 0) (line : List Nat) :
    ∀ c ∈ letters U line, c ≠ 0 := by
  intro c hc
  simp only [letters, List.mem_map, List.mem_filter] at hc
  obtain ⟨a, ⟨_, ha⟩, rfl⟩ := hc
  exact hz a ha

theorem letters_gtk_line_length (U : Unichar) (buffer : List Nat) (line_number : Nat) :
    (letters U (gtk_line buffer line_number)).length ≤ buffer.length := by
  unfold letters gtk_line
  rw [List.length_map]
  exact (List.length_filter_le _ _).trans
    (((List.takeWhile_sublist _).length_le).trans
      (get_iter_at_line_suffix buffer line_number).length_le)

/-- The scan of a line on a buffer without the paragraph separator U+2029,
for tables whose uppercase mapping of a letter is never 0: with `c` the
letters of line `line`, `a` those of the line above and `b` those of the line
below (no letters when that line does not exist), the scan emits one column
for each letter of `c`, and in column `k` the rows of the neighborhood are
`(a_k, a_{k+1}, a_{k+2})`, `(c_k, c_{k+1}, c_{k+2})` and
`(b_k, b_{k+1}, b_{k+2})`. The loop ends by its own condition: any larger
bound on the number of columns gives the same columns. -/
theorem draw_line_columns (U : Unichar)
    (hz : ∀ c, U.g_unichar_isalpha c = true → U.g_unichar_toupper c ≠ 0)
    (buffer : List Nat) (line : Nat) (hsep : 0x2029 ∉ buffer) :
    draw_line U buffer line =
      (List.range (letters U (gtk_line buffer line)).length).map (fun k =>
        [window_at (if line ≠ 0 then letters U (gtk_line buffer (line - 1)) else []) k,
          window_at (letters U (gtk_line buffer line)) k,
          window_at (if line ≠ gtk_text_buffer_get_line_count buffer - 1 then
            letters U (gtk_line buffer (line + 1)) else []) k]) ∧
    ∀ fuel, buffer.length < fuel →
      draw_columns U fuel
        [row_init U buffer (decide (line ≠ 0)) (line - 1), row_init U buffer true line,
          row_init U buffer (decide (line ≠ gtk_text_buffer_get_line_count buffer - 1))
            (line + 1)] = draw_line U buffer line := by
  have key : ∀ fuel, buffer.length < fuel →
      draw_columns U fuel
        [row_init U buffer (decide (line ≠ 0)) (line - 1), row_init U buffer true line,
          row_init U buffer (decide (line ≠ gtk_text_buffer_get_line_count buffer - 1))
            (line + 1)] =
      (List.range (letters U (gtk_line buffer line)).length).map (fun k =>
        [window_at (if line ≠ 0 then letters U (gtk_line buffer (line - 1)) else []) k,
          window_at (letters U (gtk_line buffer line)) k,
          window_at (if line ≠ gtk_text_buffer_get_line_count buffer - 1 then
            letters U (gtk_line buffer (line + 1)) else []) k]) := by
    intro fuel hfuel
    have h0 := row_init_at U buffer (decide (line ≠ 0)) (line - 1)
    have h1 := row_init_at U buffer true line
    have h2 := row_init_at U buffer
      (decide (line ≠ gtk_text_buffer_get_line_count buffer - 1)) (line + 1)
    simp only [line_rest_iter_eq_gtk_line buffer _ hsep, decide_eq_true_eq, if_true] at h0 h1 h2
    have hlen := letters_gtk_line_length U buffer line
    rw [draw_columns_at U _ _ _ (letters_ne_zero U hz _) fuel 0 _ _ _ h0 h1 h2 (by omega),
      List.range_eq_range', Nat.sub_zero]
  refine ⟨?_, fun fuel hfuel => ?_⟩
  · rw [← key (buffer.length + 1) (by omega)]
    simp [draw_line, List.range, List.range.loop]
  · rw [key fuel hfuel, ← key (buffer.length + 1) (by omega)]
    simp [draw_line, List.range, List.range.loop]

/-- The scan on the ASCII tables and the two-line buffer `ab`, line feed,
`c1de`, at line 0. -/
theorem draw_line_columns_witness :
    draw_line ascii [97, 98, 10, 99, 49, 100, 101] 0 =
      [[[0, 0, 0], [0, 65, 66], [0, 67, 68]], [[0, 0, 0], [65, 66, 0], [67, 68, 69]]] := by
  have h := (draw_line_columns ascii (fun c hc => by
    simp only [ascii, Bool.or_eq_true, Bool.and_eq_true, decide_eq_true_eq] at hc ⊢
    split_ifs <;> omega) [97, 98, 10, 99, 49, 100, 101] 0 (by decide)).1
  rw [h]
  decide

/-- C7. What the code does on the buffer `AB`, U+2029, `CD`: GTK counts two
lines and line 0 holds the two letters `A B`, but `next_in_line` ends a line
only at a carriage return or a line feed, so the scan of line 0 runs on into
line 1 and emits four columns, whose center rows are `(absent, A, B)`,
`(A, B, C)`, `(B, C, D)` and `(C, D, absent)`. -/
theorem draw_line_paragraph_separator :
    gtk_text_buffer_get_line_count [65, 66, 0x2029, 67, 68] = 2 ∧
    letters ascii (gtk_line [65, 66, 0x2029, 67, 68] 0) = [65, 66] ∧
    letters ascii (gtk_line [65, 66, 0x2029, 67, 68] 1) = [67, 68] ∧
    draw_line ascii [65, 66, 0x2029, 67, 68] 0 =
      [[[0, 0, 0], [0, 65, 66], [0, 67, 68]], [[0, 0, 0], [65, 66, 67], [67, 68, 0]],
        [[0, 0, 0], [66, 67, 68], [68, 0, 0]], [[0, 0, 0], [67, 68, 0], [0, 0, 0]]] := by
  decide

/-! ## Malformed bytes and the read bound of `get_unichar` -/

theorem get_unichar_loop_malformed (U : Unichar) (stream buffer : List Nat) (count k : Nat)
    (hk : k < stream.length)
    (hfirst : ∀ j < k,
      g_utf8_get_char_validated (buffer ++ stream.take (j + 1)) (count + j : Nat) =
        PARTIAL_SEQUENCE)
    (hmal : g_utf8_get_char_validated (buffer ++ stream.take (k + 1)) (count + k : Nat) =
      MALFORMED_SEQUENCE) :
    get_unichar_loop U stream buffer count =
      (U.g_unichar_toupper MALFORMED_SEQUENCE, stream.drop (k + 1)) := by
  induction k generalizing stream buffer count with
  | zero =>
    match stream, hk with
    | b :: stream, _ =>
      simp only [List.take_succ_cons, List.take_zero, Nat.add_zero] at hmal
      simp only [get_unichar_loop, hmal, List.drop_succ_cons, List.drop_zero]
      rw [if_pos (by decide)]
  | succ k ih =>
    match stream, hk with
    | b :: stream, hk =>
      have h0 := hfirst 0 (by omega)
      simp only [List.take_succ_cons, List.take_zero, Nat.add_zero] at h0
      simp only [get_unichar_loop, h0, ne_eq, not_true_eq_false, if_false, List.drop_succ_cons]
      apply ih stream (buffer ++ [b]) (count + 1) (by simpa using hk)
      · intro j hj
        have := hfirst (j + 1) (by omega)
        simp only [List.take_succ_cons] at this
        rw [List.append_assoc, List.singleton_append]
        rw [show count + 1 + j = count + (j + 1) by omega]
        exact this
      · simp only [List.take_succ_cons] at hmal
        rw [List.append_assoc, List.singleton_append]
        rw [show count + 1 + k = count + (k + 1) by omega]
        exact hmal

theorem validated_ne_zero (p : List Nat) (n : Nat) :
    g_utf8_get_char_validated p (n : Int) ≠ 0 := by
  unfold g_utf8_get_char_validated
  simp only []
  split
  · decide
  · rename_i hn
    have hpos : (0 : Int) < (n : Int) := by omega
    split
    · decide
    · rename_i h0
      split
      · rename_i h1
        intro h
        rw [h] at h1
        exact h1 rfl
      · split
        · decide
        · intro h
          exact h0 ⟨h, hpos⟩

theorem get_unichar_loop_zero (U : Unichar) (hz : ∀ c, c ≠ 0 → U.g_unichar_toupper c ≠ 0)
    (stream buffer : List Nat) (count : Nat)
    (h : (get_unichar_loop U stream buffer count).1 = 0) :
    (get_unichar_loop U stream buffer count).2 = [] := by
  induction stream generalizing buffer count with
  | nil => rfl
  | cons b stream ih =>
    unfold get_unichar_loop at h ⊢
    simp only [] at h ⊢
    split at h
    · exact absurd h (hz _ (validated_ne_zero _ _))
    · rename_i hp
      rw [if_neg hp]
      exact ih _ _ h

theorem decode_read_calls (U : Unichar) (n : Nat) (source pre stream : List Nat)
    (hread : read_calls U n source = (pre, stream)) (hnz : ∀ c ∈ pre, c ≠ 0) :
    decode U source = pre ++ decode U stream := by
  induction n generalizing source pre with
  | zero =>
    simp only [read_calls, Prod.mk.injEq] at hread
    obtain ⟨rfl, rfl⟩ := hread
    rfl
  | succ n ih =>
    simp only [read_calls, Prod.mk.injEq] at hread
    obtain ⟨rfl, hs⟩ := hread
    have h1 : (get_unichar U source).1 ≠ 0 := hnz _ (List.mem_cons_self _ _)
    rw [decode_unfold, if_neg h1, List.cons_append,
      ih (get_unichar U source).2 _ (Prod.ext rfl hs)
        (fun c hc => hnz c (List.mem_cons_of_mem _ hc))]

theorem windows3_filter_append (p : List Nat → Bool) (m : Nat)
    (hm : ∀ w : List Nat, m ∈ w → p w = false) (pre rest : List Nat) :
    (windows3 (pre ++ m :: rest)).filter p =
      (windows3 pre).filter p ++ (windows3 rest).filter p := by
  induction pre with
  | nil =>
    match rest with
    | [] => rfl
    | [_] => rfl
    | a :: b :: rest =>
      simp only [List.nil_append, windows3, List.filter_nil]
      rw [List.filter_cons, if_neg (by simp [hm [m, a, b] (by simp)])]
  | cons x pre ih =>
    match pre, ih with
    | [], ih =>
      match rest, ih with
      | [], _ => rfl
      | a :: rest, ih =>
        simp only [List.cons_append, List.nil_append, windows3, List.filter_nil] at ih ⊢
        rw [List.filter_cons, if_neg (by simp [hm [x, m, a] (by simp)])]
        exact ih
    | [y], ih =>
      simp only [List.cons_append, List.nil_append, windows3, List.filter_nil] at ih ⊢
      rw [List.filter_cons, if_neg (by simp [hm [x, y, m] (by simp)])]
      exact ih
    | y :: z :: pre, ih =>
      have e1 : windows3 ((x :: y :: z :: pre) ++ m :: rest) =
          [x, y, z] :: windows3 ((y :: z :: pre) ++ m :: rest) := rfl
      have e2 : windows3 (x :: y :: z :: pre) = [x, y, z] :: windows3 (y :: z :: pre) := rfl
      rw [e1, e2, List.filter_cons, List.filter_cons, ih]
      split <;> rfl

/-- C11, amended. Let a source be read by `n` calls of `get_unichar` that
return the non-zero values `pre` and leave `stream`, and let the bytes at that
read position be malformed: `g_utf8_get_char_validated` answers `(gunichar)-2`
for the first `k` bytes read and `(gunichar)-1` for the byte after them. Then
`get_unichar` returns `g_unichar_toupper ((gunichar)-1)` and leaves the source
after the bytes read. When that value is not 0 (GLib leaves `0xFFFFFFFF`
unchanged), the decoded sequence goes on after it. When moreover it is not
alphabetic and the uppercase mapping is idempotent, `counts_add` does not stop
there: for every model and every key, the count after the ingestion is the
count before, plus the all-alphabetic windows with that key in the prefix
`pre`, plus those in the characters decoded after the malformed bytes; no
window that holds the returned value is counted. A call returns 0 only when it
has read the source to its end (for tables whose uppercase mapping of a
non-zero value is not 0). -/
theorem get_unichar_malformed (U : Unichar) (n : Nat) (source pre stream : List Nat) (k : Nat)
    (hread : read_calls U n source = (pre, stream)) (hnz : ∀ c ∈ pre, c ≠ 0)
    (hk : k < stream.length)
    (hfirst : ∀ j < k,
      g_utf8_get_char_validated (stream.take (j + 1)) (j : Nat) = PARTIAL_SEQUENCE)
    (hmal : g_utf8_get_char_validated (stream.take (k + 1)) (k : Nat) = MALFORMED_SEQUENCE) :
    get_unichar U stream = (U.g_unichar_toupper MALFORMED_SEQUENCE, stream.drop (k + 1)) ∧
    (U.g_unichar_toupper MALFORMED_SEQUENCE ≠ 0 →
      decode U source =
        pre ++ U.g_unichar_toupper MALFORMED_SEQUENCE :: decode U (stream.drop (k + 1))) ∧
    (U.g_unichar_toupper MALFORMED_SEQUENCE ≠ 0 →
      U.g_unichar_isalpha (U.g_unichar_toupper MALFORMED_SEQUENCE) = false →
      (∀ c, U.g_unichar_toupper (U.g_unichar_toupper c) = U.g_unichar_toupper c) →
      ∀ (counts : CharCounts) (key : List Nat),
        g_hash_table_lookup (counts_add U counts (some source)).table key =
          g_hash_table_lookup counts.table key +
            ((windows3 pre).filter (fun w => w.all U.g_unichar_isalpha)).countP
              (fun w => trigram_key w = key) +
            ((windows3 (decode U (stream.drop (k + 1)))).filter
              (fun w => w.all U.g_unichar_isalpha)).countP (fun w => trigram_key w = key)) ∧
    ((∀ c, c ≠ 0 → U.g_unichar_toupper c ≠ 0) →
      ∀ bytes, (get_unichar U bytes).1 = 0 → (get_unichar U bytes).2 = []) := by
  have h : get_unichar U stream =
      (U.g_unichar_toupper MALFORMED_SEQUENCE, stream.drop (k + 1)) := by
    apply get_unichar_loop_malformed U stream [] 0 k hk
    · intro j hj
      simpa using hfirst j hj
    · simpa using hmal
  have hdec : U.g_unichar_toupper MALFORMED_SEQUENCE ≠ 0 →
      decode U source =
        pre ++ U.g_unichar_toupper MALFORMED_SEQUENCE :: decode U (stream.drop (k + 1)) := by
    intro hne
    rw [decode_read_calls U n source pre stream hread hnz, decode_unfold U stream, h]
    simp only [hne, if_false]
  refine ⟨h, hdec, ?_, ?_⟩
  · intro hne hnal hup counts key
    rw [counts_add_table_lookup U hup, hdec hne, windows3_filter_append, List.countP_append,
      Nat.add_assoc]
    intro w hw
    rw [List.all_eq_false]
    exact ⟨_, hw, by simp [hnal]⟩
  · intro hz bytes h0
    exact get_unichar_loop_zero U hz bytes [] 0 h0

/-- Witness of C11: the ASCII tables and the source `A A B B C C 0xFF A D D
E E F F`: three calls return `A B C`, the bytes `0xFF A` at the read position
are malformed, and the ingestion keeps the count of `ABC` and goes on to count
`DEF`. -/
theorem get_unichar_malformed_witness :
    read_calls ascii 3 [65, 65, 66, 66, 67, 67, 255, 65, 68, 68, 69, 69, 70, 70] =
      ([65, 66, 67], [255, 65, 68, 68, 69, 69, 70, 70]) ∧
    get_unichar ascii [255, 65, 68, 68, 69, 69, 70, 70] =
      (ascii.g_unichar_toupper MALFORMED_SEQUENCE, [68, 68, 69, 69, 70, 70]) ∧
    ascii.g_unichar_toupper MALFORMED_SEQUENCE = 0xFFFFFFFF ∧
    ascii.g_unichar_isalpha (ascii.g_unichar_toupper MALFORMED_SEQUENCE) = false ∧
    decode ascii [65, 65, 66, 66, 67, 67, 255, 65, 68, 68, 69, 69, 70, 70] =
      [65, 66, 67] ++ ascii.g_unichar_toupper MALFORMED_SEQUENCE ::
        decode ascii [68, 68, 69, 69, 70, 70] ∧
    g_hash_table_lookup
        (counts_add ascii initial_counts
          (some [65, 65, 66, 66, 67, 67, 255, 65, 68, 68, 69, 69, 70, 70])).table
        (trigram_key [68, 69, 70]) =
      g_hash_table_lookup initial_counts.table (trigram_key [68, 69, 70]) +
        ((windows3 [65, 66, 67]).filter (fun w => w.all ascii.g_unichar_isalpha)).countP
          (fun w => trigram_key w = trigram_key [68, 69, 70]) +
        ((windows3 (decode ascii [68, 68, 69, 69, 70, 70])).filter
          (fun w => w.all ascii.g_unichar_isalpha)).countP
          (fun w => trigram_key w = trigram_key [68, 69, 70]) ∧
    counts_add ascii initial_counts
        (some [65, 65, 66, 66, 67, 67, 255, 65, 68, 68, 69, 69, 70, 70]) =
      { table := [([65, 66, 67], 1), ([68, 69, 70], 1)], max := 1, total := 2 } :=
  ⟨by decide,
    (get_unichar_malformed ascii 3 [65, 65, 66, 66, 67, 67, 255, 65, 68, 68, 69, 69, 70, 70]
      [65, 66, 67] [255, 65, 68, 68, 69, 69, 70, 70] 1 (by decide) (by decide) (by decide)
      (fun j hj => by interval_cases j; decide) (by decide)).1,
    by decide, by decide,
    (get_unichar_malformed ascii 3 [65, 65, 66, 66, 67, 67, 255, 65, 68, 68, 69, 69, 70, 70]
      [65, 66, 67] [255, 65, 68, 68, 69, 69, 70, 70] 1 (by decide) (by decide) (by decide)
      (fun j hj => by interval_cases j; decide) (by decide)).2.1 (by decide),
    (get_unichar_malformed ascii 3 [65, 65, 66, 66, 67, 67, 255, 65, 68, 68, 69, 69, 70, 70]
      [65, 66, 67] [255, 65, 68, 68, 69, 69, 70, 70] 1 (by decide) (by decide) (by decide)
      (fun j hj => by interval_cases j; decide) (by decide)).2.2.1 (by decide) (by decide)
      ascii_toupper_idem initial_counts (trigram_key [68, 69, 70]),
    by decide⟩

/-- C11, as stated, fails: on the source `0xFF A A A B B C C` the first call
of `get_unichar` returns `0xFFFFFFFF`, not 0, and `counts_add` goes on past the
malformed byte and counts the trigram `ABC`. -/
theorem get_unichar_malformed_not_zero :
    get_unichar ascii [255, 65, 65, 65, 66, 66, 67, 67] =
      (0xFFFFFFFF, [65, 65, 66, 66, 67, 67]) ∧
    decode ascii [255, 65, 65, 65, 66, 66, 67, 67] = [0xFFFFFFFF, 65, 66, 67] ∧
    g_hash_table_lookup
      (counts_add ascii initial_counts (some [255, 65, 65, 65, 66, 66, 67, 67])).table
      (trigram_key [65, 66, 67]) = 1 := by
  decide

/-- C18. What the code does on two sources. On seven NUL bytes followed by
`A`, every validation answers `(gunichar)-2`, so one call of `get_unichar`
reads all eight bytes, storing the last two at `buffer[6]` and `buffer[7]`,
past the six slots of the buffer. On the six-byte sequence
`FC 84 80 80 80 80` followed by `A B`, the call reads seven bytes, the
seventh stored at `buffer[6]`, and returns `0xFFFFFFFF`, not 0. -/
theorem get_unichar_reads_past_buffer :
    bytes_read ascii [0, 0, 0, 0, 0, 0, 0, 65] = 8 ∧
    get_unichar ascii [0, 0, 0, 0, 0, 0, 0, 65] = (0, []) ∧
    bytes_read ascii [0xFC, 0x84, 0x80, 0x80, 0x80, 0x80, 65, 66] = 7 ∧
    get_unichar ascii [0xFC, 0x84, 0x80, 0x80, 0x80, 0x80, 65, 66] = (0xFFFFFFFF, [66]) ∧
    g_utf8_get_char_validated [0xFC, 0x84, 0x80, 0x80, 0x80, 0x80] 5 = PARTIAL_SEQUENCE := by
  decide

/-! ## Failure to open the file -/

/-- C12. When the file cannot be opened, `counts_add` returns the model it was
given: the same table, the same `total` and the same `max`. -/
theorem counts_add_open_failure (U : Unichar) (counts : CharCounts) :
    counts_add U counts none = counts ∧
    (counts_add U counts none).table = counts.table ∧
    (counts_add U counts none).total = counts.total ∧
    (counts_add U counts none).max = counts.max :=
  ⟨rfl, rfl, rfl, rfl⟩

/-! ## The window `shift` -/

theorem foldl_shift (a b c : Nat) (pushes : List Nat) :
    pushes.foldl (shift 3) [a, b, c] = ([a, b, c] ++ pushes).drop pushes.length := by
  induction pushes generalizing a b c with
  | nil => rfl
  | cons x pushes ih =>
    rw [List.foldl_cons, shift_three, ih]
    simp

/-- C19. For every window `(a0, a1, a2)` and every value `x`,
`shift(3, window, x)` leaves the window `(a1, a2, x)`; and after the pushes of
a sequence of at least three values onto any window, the window holds the last
three values pushed, oldest first. -/
theorem shift_window (a0 a1 a2 x : Nat) (pushes : List Nat) (h : 3 ≤ pushes.length) :
    shift 3 [a0, a1, a2] x = [a1, a2, x] ∧
    pushes.foldl (shift 3) [a0, a1, a2] = pushes.drop (pushes.length - 3) := by
  refine ⟨rfl, ?_⟩
  rw [foldl_shift, List.drop_append_eq_append_drop]
  have : List.drop pushes.length [a0, a1, a2] = [] := by
    apply List.drop_eq_nil_of_le
    simpa using h
  rw [this]
  rfl

/-- Witness of C19: the window `(1, 2, 3)` and the pushes `4, 5, 6, 7`. -/
theorem shift_window_witness :
    3 ≤ [4, 5, 6, 7].length ∧ shift 3 [1, 2, 3] 9 = [2, 3, 9] ∧
    [4, 5, 6, 7].foldl (shift 3) [1, 2, 3] = [5, 6, 7] :=
  ⟨by decide, (shift_window 1 2 3 9 [4, 5, 6, 7] (by decide)).1,
    (shift_window 1 2 3 9 [4, 5, 6, 7] (by decide)).2⟩

/-! ## The cleared model and the threshold at `total = 0` -/

theorem foldl_ite_false {α β : Type} (l : List α) (P : α → Bool) (g : β → α → β) (init : β)
    (h : ∀ d ∈ l, P d = false) :
    l.foldl (fun f d => if P d = true then g f d else f) init = init := by
  induction l generalizing init with
  | nil => rfl
  | cons a l ih =>
    have ha : P a = false := h a (List.mem_cons_self _ _)
    simp only [List.foldl_cons, ha, Bool.false_eq_true, if_false]
    exact ih init (fun d hd => h d (List.mem_cons_of_mem _ hd))

theorem frequency_threshold_nan (counts : CharCounts) (value : ℚ) (h : counts.total = 0)
    (hmax : counts.max = 0) : frequency_threshold counts value = Dbl.nan := by
  simp [frequency_threshold, frequency_max, Dbl.div, Dbl.ofNat, Dbl.mul, Dbl.sub, h, hmax]

theorem arrow_nan (counts : CharCounts) (surrounding : List (List Nat)) (y1 x1 : Int) :
    arrow counts surrounding Dbl.nan y1 x1 = false := by
  simp only [arrow, Bool.and_eq_false_iff]
  right
  cases frequency counts surrounding y1 x1 <;> rfl

theorem counts_clear_table (counts : CharCounts) : (counts_clear counts).table = [] := by
  simp [counts_clear, counts_clear_callback]

theorem trigram_frequency_cleared (counts : CharCounts) (surrounding : List (List Nat))
    (y0 x0 y1 x1 : Int) :
    trigram_frequency (counts_clear counts) surrounding y0 x0 y1 x1 = Dbl.nan := by
  have h0 : (counts_clear counts).total = 0 := rfl
  simp only [trigram_frequency, counts_clear_table, g_hash_table_lookup, h0]
  simp [Dbl.div, Dbl.ofNat]

/-- C13, amended. For every model, after `counts_clear` the table has no
entries, `total = 0` and `max = 0`; the frequency `draw` computes for any key
is `0 / 0`, which is NaN and not 0; the threshold is NaN as well, and `draw`
strokes no arrow. -/
theorem counts_clear_frequency (counts : CharCounts) (surrounding : List (List Nat))
    (value : ℚ) (y0 x0 y1 x1 : Int) :
    (counts_clear counts).table = [] ∧ (counts_clear counts).total = 0 ∧
    (counts_clear counts).max = 0 ∧
    (∀ key, g_hash_table_lookup (counts_clear counts).table key = 0) ∧
    trigram_frequency (counts_clear counts) surrounding y0 x0 y1 x1 = Dbl.nan ∧
    frequency_threshold (counts_clear counts) value = Dbl.nan ∧
    arrow (counts_clear counts) surrounding
      (frequency_threshold (counts_clear counts) value) y1 x1 = false := by
  have ht : (counts_clear counts).table = [] := counts_clear_table counts
  have hthr : frequency_threshold (counts_clear counts) value = Dbl.nan :=
    frequency_threshold_nan _ _ rfl rfl
  refine ⟨ht, rfl, rfl, ?_, ?_, hthr, ?_⟩
  · intro key
    rw [ht]; rfl
  · exact trigram_frequency_cleared _ _ _ _ _ _
  · rw [hthr]
    exact arrow_nan _ _ _ _

/-- C13, as stated, fails: after `counts_clear` of the model of `CAT` and
`BAT`, the frequency `draw` computes for the key `CAT` is NaN, not 0. -/
theorem counts_clear_frequency_not_zero :
    trigram_frequency (counts_clear cat_model) cat_neighborhood 0 (-1) 0 1 = Dbl.nan ∧
    (Dbl.nan == Dbl.fin 0) = false :=
  ⟨trigram_frequency_cleared _ _ _ _ _ _, by decide⟩

theorem reachable_consistent (U : Unichar) (counts : CharCounts) (h : Reachable U counts) :
    Consistent counts := by
  induction h with
  | initial => decide
  | add counts file _ ih =>
    rcases counts_add_cases U counts file with h1 | ⟨table, h1⟩
    · rw [h1]; exact ih
    · rw [h1]; exact consistent_recomputed table
  | clear counts _ _ => simp [counts_clear, counts_clear_callback, Consistent]

theorem consistent_max_le_total (counts : CharCounts) (h : Consistent counts) :
    counts.max ≤ counts.total := by
  obtain ⟨hs, _, h0, hex⟩ := h
  by_cases ht : counts.table = []
  · rw [h0 ht]; exact Nat.zero_le _
  · obtain ⟨e, he, hv⟩ := hex ht
    rw [← hv, hs]
    exact List.single_le_sum (fun _ _ => Nat.zero_le _) _ (List.mem_map_of_mem _ he)

theorem consistent_total_zero (counts : CharCounts) (h : Consistent counts)
    (ht : counts.total = 0) : counts.max = 0 := by
  have := consistent_max_le_total counts h
  omega

/-- C16, amended. For every model reachable from the initial model by
`counts_add` and `counts_clear` and every slider value `v` in [0, 1]: when
`total > 0` the threshold `(max / total) * (1 - v)` is a number in [0, 1];
when `total = 0` (the initial model, every cleared model) the threshold is
`0 / 0` times `1 - v`, which is NaN and no number in [0, 1]. -/
theorem threshold_range (U : Unichar) (counts : CharCounts) (value : ℚ)
    (hr : Reachable U counts) (h0 : 0 ≤ value) (h1 : value ≤ 1) :
    (0 < counts.total →
      ∃ t : ℚ, frequency_threshold counts value = Dbl.fin t ∧ 0 ≤ t ∧ t ≤ 1) ∧
    (counts.total = 0 → frequency_threshold counts value = Dbl.nan) := by
  have hc := reachable_consistent U counts hr
  constructor
  · intro ht
    refine ⟨_, frequency_threshold_fin counts value ht, ?_, ?_⟩
    · exact mul_nonneg (div_nonneg (Nat.cast_nonneg _) (Nat.cast_nonneg _)) (by linarith)
    · have hm : (counts.max : ℚ) ≤ (counts.total : ℚ) := by
        exact_mod_cast consistent_max_le_total counts hc
      have htp : (0 : ℚ) < (counts.total : ℚ) := by exact_mod_cast ht
      have hq : (counts.max : ℚ) / (counts.total : ℚ) ≤ 1 := (div_le_one htp).mpr hm
      have hq0 : (0 : ℚ) ≤ (counts.max : ℚ) / (counts.total : ℚ) :=
        div_nonneg (Nat.cast_nonneg _) (Nat.cast_nonneg _)
      calc (counts.max : ℚ) / (counts.total : ℚ) * (1 - value)
          ≤ 1 * 1 := mul_le_mul hq (by linarith) (by linarith) (by norm_num)
        _ = 1 := by norm_num
  · intro ht
    exact frequency_threshold_nan counts value ht (consistent_total_zero counts hc ht)

/-- Witness of C16: the model `counts_add` leaves from the initial model on
the file `THE THE THE`, and the slider value 1/2. -/
theorem threshold_range_witness :
    Reachable ascii
      (counts_add ascii initial_counts (some [84, 72, 69, 32, 84, 72, 69, 32, 84, 72, 69])) ∧
    (0 : ℚ) ≤ 1 / 2 ∧ (1 / 2 : ℚ) ≤ 1 ∧
    ∃ t : ℚ, frequency_threshold
      (counts_add ascii initial_counts (some [84, 72, 69, 32, 84, 72, 69, 32, 84, 72, 69]))
      (1 / 2) = Dbl.fin t ∧ 0 ≤ t ∧ t ≤ 1 :=
  ⟨Reachable.add _ _ Reachable.initial, by norm_num, by norm_num,
    (threshold_range ascii _ (1 / 2) (Reachable.add _ _ Reachable.initial) (by norm_num)
      (by norm_num)).1 (by decide)⟩

/-- C16, as stated, fails: for the initial model and the slider value 1/2 the
threshold is NaN, which is neither at least 0 nor at most 1. -/
theorem threshold_initial_nan :
    frequency_threshold initial_counts (1 / 2) = Dbl.nan ∧
    Dbl.le (Dbl.fin 0) (frequency_threshold initial_counts (1 / 2)) = false ∧
    Dbl.le (frequency_threshold initial_counts (1 / 2)) (Dbl.fin 1) = false := by
  have h : frequency_threshold initial_counts (1 / 2) = Dbl.nan :=
    frequency_threshold_nan _ _ rfl rfl
  rw [h]
  exact ⟨rfl, rfl, rfl⟩

/-! ## The threshold at the ends of the slider -/

theorem eligible_iff (surrounding : List (List Nat)) (y1 x1 : Int) (d : Int × Int) :
    eligible surrounding y1 x1 d = true ↔
      (d.2 ≠ 0 ∨ d.1 ≠ 0) ∧ (d.2 ≠ x1 ∨ d.1 ≠ y1) ∧ cell surrounding d.1 d.2 ≠ 0 := by
  simp only [eligible, decide_eq_true_eq, ne_eq]
  constructor
  · rintro ⟨h1, h2, h3⟩
    exact ⟨h1, h2, fun h => h3 h.symm⟩
  · rintro ⟨h1, h2, h3⟩
    exact ⟨h1, h2, fun h => h3 h.symm⟩

/-- C15. At the slider value 1 with a model whose `total` is above 0, the
threshold is 0, and for every neighborhood and every present direction
`(y1, x1)` other than the center the arrow is stroked exactly when some
present direction `(y0, x0)`, not the center and not `(y1, x1)`, has a key
`[cell (y0, x0), center, cell (y1, x1)]` with a count above 0 in the table. -/
theorem arrows_at_one (counts : CharCounts) (surrounding : List (List Nat)) (y1 x1 : Int)
    (htotal : 0 < counts.total) (hD : x1 ≠ 0 ∨ y1 ≠ 0) (hpresent : cell surrounding y1 x1 ≠ 0) :
    frequency_threshold counts 1 = Dbl.fin 0 ∧
    (arrow counts surrounding (frequency_threshold counts 1) y1 x1 = true ↔
      ∃ y0 ∈ offsets, ∃ x0 ∈ offsets, (x0 ≠ 0 ∨ y0 ≠ 0) ∧ (x0 ≠ x1 ∨ y0 ≠ y1) ∧
        cell surrounding y0 x0 ≠ 0 ∧
        0 < g_hash_table_lookup counts.table
          (trigram_key [cell surrounding y0 x0, cell surrounding 0 0, cell surrounding y1 x1])) := by
  have hne : counts.total ≠ 0 := by omega
  have htq : (0 : ℚ) < (counts.total : ℚ) := by exact_mod_cast htotal
  have hthr : frequency_threshold counts 1 = Dbl.fin 0 := by
    rw [frequency_threshold_fin counts 1 htotal]
    simp
  refine ⟨hthr, ?_⟩
  rw [hthr]
  have hguard : decide ((x1 ≠ 0 ∨ y1 ≠ 0) ∧ 0 ≠ cell surrounding y1 x1) = true := by
    simp only [decide_eq_true_eq]
    exact ⟨hD, fun h => hpresent h.symm⟩
  simp only [arrow, hguard, Bool.true_and]
  rw [gt_frequency_iff counts surrounding (Dbl.fin 0) y1 x1 (Or.inl hne) (by simp [Dbl.le])]
  have hpos : ∀ y0 x0 : Int,
      Dbl.gt (trigram_frequency counts surrounding y0 x0 y1 x1) (Dbl.fin 0) = true ↔
        0 < g_hash_table_lookup counts.table
          (trigram_key [cell surrounding y0 x0, cell surrounding 0 0, cell surrounding y1 x1]) := by
    intro y0 x0
    rw [trigram_frequency_fin _ _ _ _ _ _ hne]
    simp only [Dbl.gt, decide_eq_true_eq]
    rw [div_pos_iff_of_pos_right htq]
    exact Nat.cast_pos
  constructor
  · rintro ⟨⟨y0, x0⟩, hd, he, hg⟩
    obtain ⟨hy0, hx0⟩ := (mem_directions _).mp hd
    obtain ⟨h1, h2, h3⟩ := (eligible_iff _ _ _ _).mp he
    exact ⟨y0, hy0, x0, hx0, h1, h2, h3, (hpos y0 x0).mp hg⟩
  · rintro ⟨y0, hy0, x0, hx0, h1, h2, h3, hg⟩
    exact ⟨(y0, x0), (mem_directions _).mpr ⟨hy0, hx0⟩,
      (eligible_iff _ _ _ _).mpr ⟨h1, h2, h3⟩, (hpos y0 x0).mpr hg⟩

/-- Witness of C15: the model of `CAT` and `BAT`, the neighborhood `C A T` and
the direction east. -/
theorem arrows_at_one_witness :
    0 < cat_model.total ∧ cell cat_neighborhood 0 1 ≠ 0 ∧
    frequency_threshold cat_model 1 = Dbl.fin 0 ∧
    (arrow cat_model cat_neighborhood (frequency_threshold cat_model 1) 0 1 = true ↔
      ∃ y0 ∈ offsets, ∃ x0 ∈ offsets, (x0 ≠ 0 ∨ y0 ≠ 0) ∧ (x0 ≠ 1 ∨ y0 ≠ 0) ∧
        cell cat_neighborhood y0 x0 ≠ 0 ∧
        0 < g_hash_table_lookup cat_model.table
          (trigram_key [cell cat_neighborhood y0 x0, cell cat_neighborhood 0 0,
            cell cat_neighborhood 0 1])) :=
  ⟨by decide, by decide,
    arrows_at_one cat_model cat_neighborhood 0 1 (by decide) (Or.inl (by decide)) (by decide)⟩

theorem lookup_le_max (t : Table) (m : Nat) (h : ∀ e ∈ t, e.2 ≤ m) (key : List Nat) :
    g_hash_table_lookup t key ≤ m := by
  induction t with
  | nil => simp [g_hash_table_lookup]
  | cons e t ih =>
    obtain ⟨k, v⟩ := e
    simp only [g_hash_table_lookup]
    split
    · exact h (k, v) (List.mem_cons_self _ _)
    · exact ih (fun e he => h e (List.mem_cons_of_mem _ he))

theorem foldl_max_le (l : List ℚ) (a b : ℚ) (ha : a ≤ b) (h : ∀ q ∈ l, q ≤ b) :
    l.foldl max a ≤ b := by
  induction l generalizing a with
  | nil => exact ha
  | cons x l ih =>
    simp only [List.foldl_cons]
    exact ih _ (max_le ha (h x (List.mem_cons_self _ _)))
      (fun q hq => h q (List.mem_cons_of_mem _ hq))

/-- C20. For every model with `total > 0` whose `max` bounds every count in
its table (as the largest count does), at the slider value 0 the threshold is
`max / total`, and for every neighborhood and every direction no arrow is
stroked: the comparison is strict and no frequency exceeds `max / total`. -/
theorem no_arrow_at_zero (counts : CharCounts) (surrounding : List (List Nat)) (y1 x1 : Int)
    (htotal : 0 < counts.total) (hmax : ∀ e ∈ counts.table, e.2 ≤ counts.max) :
    frequency_threshold counts 0 = Dbl.fin ((counts.max : ℚ) / (counts.total : ℚ)) ∧
    arrow counts surrounding (frequency_threshold counts 0) y1 x1 = false := by
  have hne : counts.total ≠ 0 := by omega
  have htq : (0 : ℚ) < (counts.total : ℚ) := by exact_mod_cast htotal
  have hthr : frequency_threshold counts 0 =
      Dbl.fin ((counts.max : ℚ) / (counts.total : ℚ)) := by
    rw [frequency_threshold_fin counts 0 htotal]
    simp
  refine ⟨hthr, ?_⟩
  rw [hthr]
  simp only [arrow, Bool.and_eq_false_iff]
  right
  rw [frequency_best _ _ _ _ hne]
  simp only [Dbl.gt, decide_eq_false_iff_not, not_lt, best]
  apply foldl_max_le
  · exact div_nonneg (Nat.cast_nonneg _) (Nat.cast_nonneg _)
  · intro q hq
    obtain ⟨d, _, rfl⟩ := List.mem_map.mp hq
    apply div_le_div_of_nonneg_right _ (le_of_lt htq)
    exact_mod_cast lookup_le_max counts.table counts.max hmax _

/-- Witness of C20: the model of `CAT` and `BAT`, the neighborhood `C A T` and
the direction east. -/
theorem no_arrow_at_zero_witness :
    0 < cat_model.total ∧ (∀ e ∈ cat_model.table, e.2 ≤ cat_model.max) ∧
    frequency_threshold cat_model 0 =
      Dbl.fin ((cat_model.max : ℚ) / (cat_model.total : ℚ)) ∧
    arrow cat_model cat_neighborhood (frequency_threshold cat_model 0) 0 1 = false :=
  ⟨by decide, by decide,
    no_arrow_at_zero cat_model cat_neighborhood 0 1 (by decide) (by decide)⟩

/-! ## Few neighbors -/

theorem foldl_ite_unique {α β : Type} (l : List α) (P : α → Bool) (g : β → α → β) (init : β)
    (d0 : α) (hn : l.Nodup) (hd : d0 ∈ l) (hP : P d0 = true)
    (hu : ∀ d ∈ l, P d = true → d = d0) :
    l.foldl (fun f d => if P d = true then g f d else f) init = g init d0 := by
  induction l generalizing init with
  | nil => simp at hd
  | cons a l ih =>
    obtain ⟨ha, hl⟩ := List.nodup_cons.mp hn
    simp only [List.foldl_cons]
    by_cases hPa : P a = true
    · have hae : a = d0 := hu a (List.mem_cons_self _ _) hPa
      subst hae
      rw [if_pos hPa]
      apply foldl_ite_false
      intro d hdl
      by_contra hPd
      have : d = a := hu d (List.mem_cons_of_mem _ hdl) (by simpa using hPd)
      exact ha (this ▸ hdl)
    · rw [if_neg hPa]
      have hd' : d0 ∈ l := by
        rcases List.mem_cons.mp hd with h | h
        · exact absurd (h ▸ hP) hPa
        · exact h
      exact ih init hl hd' (fun d hdl => hu d (List.mem_cons_of_mem _ hdl))

theorem gt_zero_trigram_frequency (counts : CharCounts) (surrounding : List (List Nat))
    (y0 x0 y1 x1 : Int) :
    Dbl.gt (Dbl.fin 0) (trigram_frequency counts surrounding y0 x0 y1 x1) = false := by
  simp only [trigram_frequency, Dbl.div, Dbl.ofNat]
  split_ifs with h1 h2 h3
  · rfl
  · rfl
  · exact absurd (lt_of_le_of_ne (Nat.cast_nonneg _) (Ne.symm h2)) h3
  · simp only [Dbl.gt, decide_eq_false_iff_not, not_lt]
    exact div_nonneg (Nat.cast_nonneg _) (Nat.cast_nonneg _)

theorem directions_nodup : directions.Nodup := by decide

theorem frequency_no_candidate (counts : CharCounts) (surrounding : List (List Nat))
    (y1 x1 : Int) (hnone : ∀ d ∈ directions, eligible surrounding y1 x1 d = false) :
    frequency counts surrounding y1 x1 = Dbl.fin 0 := by
  rw [frequency_eq_foldl]
  exact foldl_ite_false _ _ _ _ hnone

theorem arrow_no_candidate (counts : CharCounts) (surrounding : List (List Nat))
    (threshold : Dbl) (y1 x1 : Int) (ht : Dbl.le (Dbl.fin 0) threshold = true)
    (hnone : ∀ d ∈ directions, eligible surrounding y1 x1 d = false) :
    arrow counts surrounding threshold y1 x1 = false := by
  simp only [arrow, frequency_no_candidate counts surrounding y1 x1 hnone,
    Bool.and_eq_false_iff]
  right
  cases threshold <;> simp_all [Dbl.gt, Dbl.le]

/-- C17. For every model, every threshold that is at least 0, every
neighborhood and every direction `(y1, x1)`: when no cell other than the
center and `(y1, x1)` is present, `best` (the value `frequency` of `draw`) is 0
and no arrow is stroked toward `(y1, x1)`; when exactly one such cell
`(y0, x0)` is present, `best` is the frequency of the single trigram
`[cell (y0, x0), center, cell (y1, x1)]`. -/
theorem best_few_neighbors (counts : CharCounts) (surrounding : List (List Nat))
    (threshold : Dbl) (y1 x1 : Int) (ht : Dbl.le (Dbl.fin 0) threshold = true) :
    ((∀ y0 ∈ offsets, ∀ x0 ∈ offsets, (x0 ≠ 0 ∨ y0 ≠ 0) → (x0 ≠ x1 ∨ y0 ≠ y1) →
        cell surrounding y0 x0 = 0) →
      frequency counts surrounding y1 x1 = Dbl.fin 0 ∧
      arrow counts surrounding threshold y1 x1 = false) ∧
    (∀ y0 ∈ offsets, ∀ x0 ∈ offsets, (x0 ≠ 0 ∨ y0 ≠ 0) → (x0 ≠ x1 ∨ y0 ≠ y1) →
      cell surrounding y0 x0 ≠ 0 →
      (∀ y ∈ offsets, ∀ x ∈ offsets, (x ≠ 0 ∨ y ≠ 0) → (x ≠ x1 ∨ y ≠ y1) →
        cell surrounding y x ≠ 0 → y = y0 ∧ x = x0) →
      frequency counts surrounding y1 x1 =
        trigram_frequency counts surrounding y0 x0 y1 x1) := by
  constructor
  · intro hnone
    have hn : ∀ d ∈ directions, eligible surrounding y1 x1 d = false := by
      intro d hd
      obtain ⟨hy, hx⟩ := (mem_directions d).mp hd
      by_contra he
      obtain ⟨h1, h2, h3⟩ := (eligible_iff _ _ _ _).mp (by simpa using he)
      exact h3 (hnone d.1 hy d.2 hx h1 h2)
    exact ⟨frequency_no_candidate counts surrounding y1 x1 hn,
      arrow_no_candidate counts surrounding threshold y1 x1 ht hn⟩
  · intro y0 hy0 x0 hx0 h1 h2 h3 hu
    rw [frequency_eq_foldl]
    rw [foldl_ite_unique directions (eligible surrounding y1 x1)
      (fun f d => Dbl.MAX f (trigram_frequency counts surrounding d.1 d.2 y1 x1)) (Dbl.fin 0)
      (y0, x0) directions_nodup ((mem_directions _).mpr ⟨hy0, hx0⟩)
      ((eligible_iff _ _ _ _).mpr ⟨h1, h2, h3⟩)]
    · simp only [Dbl.MAX, gt_zero_trigram_frequency, Bool.false_eq_true, if_false]
    · intro d hd he
      obtain ⟨hy, hx⟩ := (mem_directions d).mp hd
      obtain ⟨e1, e2, e3⟩ := (eligible_iff _ _ _ _).mp he
      obtain ⟨r1, r2⟩ := hu d.1 hy d.2 hx e1 e2 e3
      exact Prod.ext r1 r2

/-- Witness of C17: the model of `CAT` and `BAT`, the neighborhood `C A T`,
the threshold 1/4 and the direction east, whose only other neighbor is west. -/
theorem best_few_neighbors_witness :
    Dbl.le (Dbl.fin 0) (Dbl.fin (1 / 4)) = true ∧
    frequency cat_model cat_neighborhood 0 1 =
      trigram_frequency cat_model cat_neighborhood 0 (-1) 0 1 :=
  ⟨by simp [Dbl.le],
    (best_few_neighbors cat_model cat_neighborhood (Dbl.fin (1 / 4)) 0 1
      (by simp [Dbl.le])).2 0 (by decide) (-1) (by decide) (by decide) (by decide) (by decide)
      (by decide)⟩
/-! ## A buffer of a single line -/

theorem draw_columns_single (U : Unichar) (fuel : Nat) (r1 : Row) (s : List (List Nat))
    (hs : s ∈ draw_columns U fuel
      [{ has_line := false, iter := [], surrounding := [0, 0, 0] }, r1,
        { has_line := false, iter := [], surrounding := [0, 0, 0] }]) :
    ∃ row, s = [[0, 0, 0], row, [0, 0, 0]] := by
  induction fuel generalizing r1 with
  | zero => simp [draw_columns] at hs
  | succ fuel ih =>
    simp only [draw_columns] at hs
    split at hs
    · simp only [List.map_cons, List.map_nil, List.mem_cons] at hs
      rcases hs with hs | hs
      · exact ⟨_, hs⟩
      · exact ih _ hs
    · simp at hs

theorem draw_line_single (U : Unichar) (buffer : List Nat)
    (hline : gtk_text_buffer_get_line_count buffer = 1) (s : List (List Nat))
    (hs : s ∈ draw_line U buffer 0) : ∃ row, s = [[0, 0, 0], row, [0, 0, 0]] := by
  simp only [draw_line, hline, List.range, List.range.loop, List.map_cons, List.map_nil,
    List.getD_cons_zero, List.getD_cons_succ] at hs
  exact draw_columns_single U _ _ s hs

theorem cell_single_above (row : List Nat) (x : Int) :
    cell [[0, 0, 0], row, [0, 0, 0]] (-1) x = 0 := by
  simp only [cell]
  generalize (x + 1).toNat = n
  match n with
  | 0 => rfl
  | 1 => rfl
  | 2 => rfl
  | n + 3 => rfl

theorem cell_single_below (row : List Nat) (x : Int) :
    cell [[0, 0, 0], row, [0, 0, 0]] 1 x = 0 := by
  simp only [cell]
  generalize (x + 1).toNat = n
  match n with
  | 0 => rfl
  | 1 => rfl
  | 2 => rfl
  | n + 3 => rfl

theorem single_no_candidate (row : List Nat) (x1 : Int) (hx1 : x1 = -1 ∨ x1 = 1)
    (hopp : cell [[0, 0, 0], row, [0, 0, 0]] 0 (-x1) = 0) :
    ∀ d ∈ directions, eligible [[0, 0, 0], row, [0, 0, 0]] 0 x1 d = false := by
  intro d hd
  obtain ⟨y, x⟩ := d
  obtain ⟨hy, hx⟩ := (mem_directions _).mp hd
  by_contra he
  obtain ⟨h1, h2, h3⟩ := (eligible_iff _ _ _ _).mp (by simpa using he)
  simp only [offsets, List.mem_cons, List.mem_singleton, List.not_mem_nil, or_false] at hy hx
  simp only at h1 h2 h3
  rcases hy with rfl | rfl | rfl
  · exact h3 (cell_single_above row x)
  · rcases hx1 with rfl | rfl <;> rcases hx with rfl | rfl | rfl <;> simp_all
  · exact h3 (cell_single_below row x)

/-- C14. For every buffer of a single line, every model and every threshold
that is at least 0, in every neighborhood the scan of `draw` emits: the cells
of the row above and of the row below are absent; no arrow is stroked toward
any of the six directions with a non-zero row offset; and an arrow toward west
or toward east is stroked only when the opposite horizontal cell is present. -/
theorem single_line_arrows (U : Unichar) (buffer : List Nat) (counts : CharCounts)
    (threshold : Dbl) (surrounding : List (List Nat))
    (hline : gtk_text_buffer_get_line_count buffer = 1)
    (ht : Dbl.le (Dbl.fin 0) threshold = true)
    (hs : surrounding ∈ draw_line U buffer 0) :
    (∀ x, cell surrounding (-1) x = 0 ∧ cell surrounding 1 x = 0) ∧
    (∀ x1, arrow counts surrounding threshold (-1) x1 = false ∧
      arrow counts surrounding threshold 1 x1 = false) ∧
    (arrow counts surrounding threshold 0 (-1) = true → cell surrounding 0 1 ≠ 0) ∧
    (arrow counts surrounding threshold 0 1 = true → cell surrounding 0 (-1) ≠ 0) := by
  obtain ⟨row, rfl⟩ := draw_line_single U buffer hline surrounding hs
  refine ⟨fun x => ⟨cell_single_above row x, cell_single_below row x⟩, ?_, ?_, ?_⟩
  · intro x1
    simp [arrow, cell_single_above, cell_single_below]
  · intro ha h0
    have := arrow_no_candidate counts _ threshold 0 (-1) ht
      (single_no_candidate row (-1) (Or.inl rfl) (by simpa using h0))
    rw [this] at ha
    exact Bool.false_ne_true ha
  · intro ha h0
    have := arrow_no_candidate counts _ threshold 0 1 ht
      (single_no_candidate row 1 (Or.inr rfl) (by simpa using h0))
    rw [this] at ha
    exact Bool.false_ne_true ha

/-- Witness of C14: the ASCII tables, the buffer `CAT`, the model of `CAT`
and `BAT`, the threshold 1/4 and the neighborhood of the column of `A`. -/
theorem single_line_arrows_witness :
    gtk_text_buffer_get_line_count [67, 65, 84] = 1 ∧
    Dbl.le (Dbl.fin 0) (Dbl.fin (1 / 4)) = true ∧
    [[0, 0, 0], [67, 65, 84], [0, 0, 0]] ∈ draw_line ascii [67, 65, 84] 0 ∧
    (∀ x1, arrow cat_model [[0, 0, 0], [67, 65, 84], [0, 0, 0]] (Dbl.fin (1 / 4)) (-1) x1 = false ∧
      arrow cat_model [[0, 0, 0], [67, 65, 84], [0, 0, 0]] (Dbl.fin (1 / 4)) 1 x1 = false) :=
  ⟨by decide, by simp [Dbl.le], by decide,
    (single_line_arrows ascii [67, 65, 84] cat_model (Dbl.fin (1 / 4))
      [[0, 0, 0], [67, 65, 84], [0, 0, 0]] (by decide) (by simp [Dbl.le]) (by decide)).2.1⟩

end Strands
